import Mathlib

/-!
Verification development for the `backup` archive engine.

The Go sources are shallowly embedded: Go byte streams become `List Nat`
(each element a byte value `< 256`), Go strings become their byte lists,
machine integers become `Nat`/`Int` with explicit truncation where the code
truncates, and fallible operations return `Except String`.  Filesystem
side effects of the restorer are recorded as an explicit effect trace.
-/

namespace Backup

/-- FileType mirrors the Go `FileType` enumeration (src/unnamed/part_003). -/
inductive FileType
  | file
  | dir
  | symlink
  | hardlink
  | fifo
  | charDevice
  | blockDevice
  | socket
deriving DecidableEq, Repr

/-- FileEntry mirrors the Go `FileEntry` struct (src/unnamed/part_003).
Go string fields are embedded as byte lists.  The `Compress`/`Encrypt`
booleans of the Go struct are never read by any code under verification and
are omitted. -/
structure FileEntry where
  relPath : List Nat
  type : FileType
  mode : Nat
  size : Int
  modTime : Int
  accessTime : Int
  changeTime : Int
  uid : Int
  gid : Int
  linkTarget : List Nat
  linkName : List Nat
  devMajor : Int
  devMinor : Int
deriving DecidableEq, Repr

/-- Little-endian encoding of a `uint32` value, as produced by
`binary.Write(w, binary.LittleEndian, x)` on a 32-bit value. -/
def u32le (n : Nat) : List Nat :=
  [n % 256, n / 256 % 256, n / 65536 % 256, n / 16777216 % 256]

/-- Little-endian encoding of a `uint64` value. -/
def u64le (n : Nat) : List Nat :=
  [n % 256, n / 256 % 256, n / 65536 % 256, n / 16777216 % 256,
   n / 4294967296 % 256, n / 1099511627776 % 256,
   n / 281474976710656 % 256, n / 72057594037927936 % 256]

/-- Little-endian encoding of an `int64` value (two's complement). -/
def i64le (v : Int) : List Nat :=
  u64le (v % 18446744073709551616).toNat

/-- Little-endian encoding of an `int32` value (two's complement), as
produced by `binary.Write` after Go's `int32(x)` conversion. -/
def i32le (v : Int) : List Nat :=
  u32le (v % 4294967296).toNat

/-- Value of a little-endian byte list. -/
def decodeLE : List Nat → Nat
  | [] => 0
  | b :: bs => b + 256 * decodeLE bs

/-- Reinterpret an unsigned 64-bit value as a signed `int64`. -/
def toSigned64 (n : Nat) : Int :=
  if n < 9223372036854775808 then (n : Int) else (n : Int) - 18446744073709551616

/-- Reinterpret an unsigned 32-bit value as a signed `int32`. -/
def toSigned32 (n : Nat) : Int :=
  if n < 2147483648 then (n : Int) else (n : Int) - 4294967296

/-- Model of `io.ReadFull` on a byte stream: read exactly `n` bytes or fail. -/
def readBytes : Nat → List Nat → Except String (List Nat × List Nat)
  | 0, s => .ok ([], s)
  | _ + 1, [] => .error "unexpected EOF"
  | n + 1, b :: s =>
    match readBytes n s with
    | .error e => .error e
    | .ok (bs, rest) => .ok (b :: bs, rest)

/-- Model of `binary.Read` of a single byte. -/
def readU8 : List Nat → Except String (Nat × List Nat)
  | [] => .error "EOF"
  | b :: s => .ok (b, s)

/-- Model of `binary.Read` of a little-endian `uint32`. -/
def readU32LE (s : List Nat) : Except String (Nat × List Nat) :=
  match readBytes 4 s with
  | .error e => .error e
  | .ok (bs, rest) => .ok (decodeLE bs, rest)

/-- Model of `binary.Read` of a little-endian `int64`. -/
def readI64LE (s : List Nat) : Except String (Int × List Nat) :=
  match readBytes 8 s with
  | .error e => .error e
  | .ok (bs, rest) => .ok (toSigned64 (decodeLE bs), rest)

/-- Model of `binary.Read` of a little-endian `int32`. -/
def readI32LE (s : List Nat) : Except String (Int × List Nat) :=
  match readBytes 4 s with
  | .error e => .error e
  | .ok (bs, rest) => .ok (toSigned32 (decodeLE bs), rest)

theorem readBytes_append (bs rest : List Nat) :
    readBytes bs.length (bs ++ rest) = .ok (bs, rest) := by
  induction bs with
  | nil => rfl
  | cons b t ih => simp [readBytes, ih]

theorem readBytes_length {n : Nat} {s bs rest : List Nat}
    (h : readBytes n s = .ok (bs, rest)) : rest.length + n = s.length := by
  induction n generalizing s bs rest with
  | zero =>
    simp [readBytes] at h
    simp [h.2]
  | succ n ih =>
    match s with
    | [] => simp [readBytes] at h
    | b :: s =>
      simp only [readBytes] at h
      cases hr : readBytes n s with
      | error e => rw [hr] at h; simp at h
      | ok p =>
        rw [hr] at h
        simp at h
        have := @ih s p.1 p.2 (by rw [hr])
        simp [← h.2]
        omega

theorem u32le_length (n : Nat) : (u32le n).length = 4 := rfl

theorem u64le_length (n : Nat) : (u64le n).length = 8 := rfl

theorem i64le_length (v : Int) : (i64le v).length = 8 := rfl

theorem i32le_length (v : Int) : (i32le v).length = 4 := rfl

theorem decodeLE_u32le {n : Nat} (h : n < 4294967296) : decodeLE (u32le n) = n := by
  simp [u32le, decodeLE]
  omega

theorem decodeLE_u64le {n : Nat} (h : n < 18446744073709551616) :
    decodeLE (u64le n) = n := by
  simp [u64le, decodeLE]
  omega

theorem readU32LE_append {n : Nat} (h : n < 4294967296) (rest : List Nat) :
    readU32LE (u32le n ++ rest) = .ok (n, rest) := by
  have h4 : readBytes 4 (u32le n ++ rest) = .ok (u32le n, rest) := by
    have := readBytes_append (u32le n) rest
    rwa [u32le_length] at this
  simp [readU32LE, h4, decodeLE_u32le h]

theorem readI64LE_append {v : Int} (hlo : -9223372036854775808 ≤ v)
    (hhi : v < 9223372036854775808) (rest : List Nat) :
    readI64LE (i64le v ++ rest) = .ok (v, rest) := by
  have h8 : readBytes 8 (i64le v ++ rest) = .ok (i64le v, rest) := by
    have := readBytes_append (i64le v) rest
    rwa [i64le_length] at this
  have hb : (v % 18446744073709551616).toNat < 18446744073709551616 := by omega
  simp only [readI64LE]
  rw [h8]
  simp only [i64le, decodeLE_u64le hb]
  have hs : toSigned64 (v % 18446744073709551616).toNat = v := by
    simp [toSigned64]
    split <;> omega
  rw [hs]

theorem readI32LE_append {v : Int} (hlo : -2147483648 ≤ v)
    (hhi : v < 2147483648) (rest : List Nat) :
    readI32LE (i32le v ++ rest) = .ok (v, rest) := by
  have h4 : readBytes 4 (i32le v ++ rest) = .ok (i32le v, rest) := by
    have := readBytes_append (i32le v) rest
    rwa [i32le_length] at this
  have hb : (v % 4294967296).toNat < 4294967296 := by omega
  simp only [readI32LE]
  rw [h4]
  simp only [i32le, decodeLE_u32le hb]
  have hs : toSigned32 (v % 4294967296).toNat = v := by
    simp [toSigned32]
    split <;> omega
  rw [hs]

/-! ## Container codec constants (src/unnamed/part_002, v2 constant block) -/

/-- The magic token "BKUP" as bytes. -/
def magicNumber : List Nat := [66, 75, 85, 80]

/-- Format version of the final combined format (version 2 adds flags). -/
def formatVersion : Nat := 2

def flagCompress : Nat := 1

def flagEncrypt : Nat := 2

def entryTypeEnd : Nat := 0

def entryTypeFile : Nat := 1

def entryTypeDir : Nat := 2

def entryTypeSymlink : Nat := 3

def entryTypeHardlink : Nat := 4

def entryTypeFifo : Nat := 5

def entryTypeCharDev : Nat := 6

def entryTypeBlockDev : Nat := 7

/-- The wire tag for each entry kind, per the switch at the top of
`writeEntry`.  Sockets are skipped before a tag is ever assigned, so the
value returned for `socket` is never written. -/
def tagOf : FileType → Nat
  | .file => entryTypeFile
  | .dir => entryTypeDir
  | .symlink => entryTypeSymlink
  | .hardlink => entryTypeHardlink
  | .fifo => entryTypeFifo
  | .charDevice => entryTypeCharDev
  | .blockDevice => entryTypeBlockDev
  | .socket => 0

/-- Model of `readHeaderWithFlags` (src/internal/backup/unpack.go lines
190-232): validate the magic, validate the version, then read the flags
byte plus 7 reserved bytes (version ≥ 2) or 8 reserved bytes (version 1). -/
def readHeaderWithFlags (s : List Nat) : Except String ((Bool × Bool) × List Nat) :=
  match readBytes 4 s with
  | .error e => .error e
  | .ok (magic, s1) =>
    if magic ≠ magicNumber then .error "无效的归档文件格式，魔数不匹配"
    else
      match readU32LE s1 with
      | .error e => .error e
      | .ok (version, s2) =>
        if version < 1 ∨ version > formatVersion then .error "不支持的归档文件版本"
        else if version ≥ 2 then
          match readU8 s2 with
          | .error e => .error e
          | .ok (flags, s3) =>
            match readBytes 7 s3 with
            | .error e => .error e
            | .ok (_, s4) =>
              .ok ((decide (Nat.land flags flagCompress ≠ 0),
                    decide (Nat.land flags flagEncrypt ≠ 0)), s4)
        else
          match readBytes 8 s2 with
          | .error e => .error e
          | .ok (_, s3) => .ok ((false, false), s3)

/-- Model of `readEntryType` (src/internal/backup/unpack.go line 320). -/
def readEntryType (s : List Nat) : Except String (Nat × List Nat) := readU8 s

/-- Model of the Go `entryData` struct produced by `readEntry`
(src/internal/backup/unpack.go lines 327-341).  The `Type` field of the Go
struct is never assigned by `readEntry` and is omitted; the entry type is
carried separately as the tag byte. -/
structure EntryData where
  relPath : List Nat
  mode : Nat
  modTime : Int
  accessTime : Int
  changeTime : Int
  uid : Int
  gid : Int
  size : Int
  linkTarget : List Nat
  linkName : List Nat
  devMajor : Int
  devMinor : Int
deriving DecidableEq, Repr

/-- The common metadata block written by `writeEntry` (src/unnamed/part_002
lines 947-975): length-prefixed path, mode, three timestamps, uid, gid. -/
def metaBytes (e : FileEntry) : List Nat :=
  u32le e.relPath.length ++ e.relPath ++ u32le e.mode ++ i64le e.modTime ++
  i64le e.accessTime ++ i64le e.changeTime ++ i32le e.uid ++ i32le e.gid

/-- The kind-specific trailing bytes written by `writeEntry`
(src/unnamed/part_002 lines 977-1028).  For a regular file the source
file's bytes are modelled by `content`; `io.CopyN` fails when the source holds
fewer than `Size` bytes and otherwise copies exactly the first `Size`
bytes. -/
def kindPayload (e : FileEntry) (content : List Nat) : Except String (List Nat) :=
  match e.type with
  | .file =>
    if e.size > 0 then
      if content.length < e.size.toNat then .error "写入文件内容失败"
      else .ok (i64le e.size ++ content.take e.size.toNat)
    else .ok (i64le e.size)
  | .symlink => .ok (u32le e.linkTarget.length ++ e.linkTarget)
  | .hardlink => .ok (u32le e.linkName.length ++ e.linkName)
  | .charDevice => .ok (i64le e.devMajor ++ i64le e.devMinor)
  | .blockDevice => .ok (i64le e.devMajor ++ i64le e.devMinor)
  | _ => .ok []

/-- Model of `writeEntry` (src/unnamed/part_002 lines 917-1031): tag byte,
length-prefixed path, metadata block, kind-specific payload.  Sockets are
skipped (nothing is written). -/
def writeEntry (e : FileEntry) (content : List Nat) : Except String (List Nat) :=
  match e.type with
  | .socket => .ok []
  | _ =>
    match kindPayload e content with
    | .error err => .error err
    | .ok payload => .ok (tagOf e.type :: metaBytes e ++ payload)

/-- Kind-specific part of `readEntry` (src/internal/backup/unpack.go lines
378-414): dispatch on the tag byte; tags without kind-specific data (and
unknown tags) read nothing further. -/
def readEntryKind (entryType : Nat) (base : EntryData) (s : List Nat) :
    Except String (EntryData × List Nat) :=
  if entryType = entryTypeFile then
    match readI64LE s with
    | .error e => .error e
    | .ok (size, s1) => .ok ({ base with size := size }, s1)
  else if entryType = entryTypeSymlink then
    match readU32LE s with
    | .error e => .error e
    | .ok (linkLen, s1) =>
      match readBytes linkLen s1 with
      | .error e => .error e
      | .ok (linkBytes, s2) => .ok ({ base with linkTarget := linkBytes }, s2)
  else if entryType = entryTypeHardlink then
    match readU32LE s with
    | .error e => .error e
    | .ok (linkLen, s1) =>
      match readBytes linkLen s1 with
      | .error e => .error e
      | .ok (linkBytes, s2) => .ok ({ base with linkName := linkBytes }, s2)
  else if entryType = entryTypeCharDev ∨ entryType = entryTypeBlockDev then
    match readI64LE s with
    | .error e => .error e
    | .ok (devMajor, s1) =>
      match readI64LE s1 with
      | .error e => .error e
      | .ok (devMinor, s2) =>
        .ok ({ base with devMajor := devMajor, devMinor := devMinor }, s2)
  else .ok (base, s)

/-- Model of `readEntry` (src/internal/backup/unpack.go lines 344-417):
length-prefixed path, metadata block, then the kind-specific fields. -/
def readEntry (s : List Nat) (entryType : Nat) : Except String (EntryData × List Nat) :=
  match readU32LE s with
  | .error e => .error e
  | .ok (pathLen, s1) =>
    match readBytes pathLen s1 with
    | .error e => .error e
    | .ok (pathBytes, s2) =>
      match readU32LE s2 with
      | .error e => .error e
      | .ok (mode, s3) =>
        match readI64LE s3 with
        | .error e => .error e
        | .ok (modTime, s4) =>
          match readI64LE s4 with
          | .error e => .error e
          | .ok (accessTime, s5) =>
            match readI64LE s5 with
            | .error e => .error e
            | .ok (changeTime, s6) =>
              match readI32LE s6 with
              | .error e => .error e
              | .ok (uid, s7) =>
                match readI32LE s7 with
                | .error e => .error e
                | .ok (gid, s8) =>
                  readEntryKind entryType
                    ⟨pathBytes, mode, modTime, accessTime, changeTime,
                     uid, gid, 0, [], [], 0, 0⟩ s8

/-- Wellformedness of an in-memory entry with its file content: every field
lies within the machine width the data model assigns it (mode `uint32`,
times `int64`, uid/gid `int32`, size nonnegative `int64`, path lengths
below `2^32`), and for a regular file the source holds exactly `size`
bytes. -/
def WFEntry (e : FileEntry) (content : List Nat) : Prop :=
  e.relPath.length < 4294967296 ∧
  e.mode < 4294967296 ∧
  -9223372036854775808 ≤ e.modTime ∧ e.modTime < 9223372036854775808 ∧
  -9223372036854775808 ≤ e.accessTime ∧ e.accessTime < 9223372036854775808 ∧
  -9223372036854775808 ≤ e.changeTime ∧ e.changeTime < 9223372036854775808 ∧
  -2147483648 ≤ e.uid ∧ e.uid < 2147483648 ∧
  -2147483648 ≤ e.gid ∧ e.gid < 2147483648 ∧
  0 ≤ e.size ∧ e.size < 9223372036854775808 ∧
  e.linkTarget.length < 4294967296 ∧
  e.linkName.length < 4294967296 ∧
  -9223372036854775808 ≤ e.devMajor ∧ e.devMajor < 9223372036854775808 ∧
  -9223372036854775808 ≤ e.devMinor ∧ e.devMinor < 9223372036854775808 ∧
  (e.type = FileType.file → content.length = e.size.toNat)

instance (e : FileEntry) (content : List Nat) : Decidable (WFEntry e content) := by
  unfold WFEntry
  infer_instance

/-- The metadata fields of `e` packaged the way `readEntry` initialises its
result before the kind-specific switch. -/
def baseOf (e : FileEntry) : EntryData :=
  ⟨e.relPath, e.mode, e.modTime, e.accessTime, e.changeTime, e.uid, e.gid,
   0, [], [], 0, 0⟩

/-- The `entryData` an exact round trip must produce for `e`: metadata
copied through, kind-specific fields populated only for the matching kind. -/
def expectedData (e : FileEntry) : EntryData :=
  { relPath := e.relPath
    mode := e.mode
    modTime := e.modTime
    accessTime := e.accessTime
    changeTime := e.changeTime
    uid := e.uid
    gid := e.gid
    size := if e.type = FileType.file then e.size else 0
    linkTarget := if e.type = FileType.symlink then e.linkTarget else []
    linkName := if e.type = FileType.hardlink then e.linkName else []
    devMajor :=
      if e.type = FileType.charDevice ∨ e.type = FileType.blockDevice then e.devMajor else 0
    devMinor :=
      if e.type = FileType.charDevice ∨ e.type = FileType.blockDevice then e.devMinor else 0 }

theorem readEntry_metaBytes (e : FileEntry) (content : List Nat)
    (hwf : WFEntry e content) (tail : List Nat) (t : Nat) :
    readEntry (metaBytes e ++ tail) t = readEntryKind t (baseOf e) tail := by
  obtain ⟨hpl, hmode, hmt1, hmt2, hat1, hat2, hct1, hct2, huid1, huid2,
    hgid1, hgid2, hsz1, hsz2, hlt, hln, hdM1, hdM2, hdm1, hdm2, hcont⟩ := hwf
  simp only [metaBytes, readEntry, List.append_assoc, readU32LE_append hpl,
    readBytes_append, readU32LE_append hmode, readI64LE_append hmt1 hmt2,
    readI64LE_append hat1 hat2, readI64LE_append hct1 hct2,
    readI32LE_append huid1 huid2, readI32LE_append hgid1 hgid2, baseOf]

theorem readEntryKind_file (base : EntryData) (size : Int) (tail : List Nat)
    (h1 : -9223372036854775808 ≤ size) (h2 : size < 9223372036854775808) :
    readEntryKind entryTypeFile base (i64le size ++ tail) =
      .ok ({ base with size := size }, tail) := by
  simp [readEntryKind, readI64LE_append h1 h2]

theorem readEntryKind_symlink (base : EntryData) (lt tail : List Nat)
    (h : lt.length < 4294967296) :
    readEntryKind entryTypeSymlink base (u32le lt.length ++ (lt ++ tail)) =
      .ok ({ base with linkTarget := lt }, tail) := by
  simp [readEntryKind, entryTypeSymlink, entryTypeFile, List.append_assoc,
    readU32LE_append h, readBytes_append]

theorem readEntryKind_hardlink (base : EntryData) (ln tail : List Nat)
    (h : ln.length < 4294967296) :
    readEntryKind entryTypeHardlink base (u32le ln.length ++ (ln ++ tail)) =
      .ok ({ base with linkName := ln }, tail) := by
  simp [readEntryKind, entryTypeHardlink, entryTypeSymlink, entryTypeFile,
    List.append_assoc, readU32LE_append h, readBytes_append]

theorem readEntryKind_dev (t : Nat) (ht : t = entryTypeCharDev ∨ t = entryTypeBlockDev)
    (base : EntryData) (dM dm : Int) (tail : List Nat)
    (h1 : -9223372036854775808 ≤ dM) (h2 : dM < 9223372036854775808)
    (h3 : -9223372036854775808 ≤ dm) (h4 : dm < 9223372036854775808) :
    readEntryKind t base (i64le dM ++ (i64le dm ++ tail)) =
      .ok ({ base with devMajor := dM, devMinor := dm }, tail) := by
  rcases ht with ht | ht <;>
    simp [readEntryKind, ht, entryTypeCharDev, entryTypeBlockDev, entryTypeHardlink,
      entryTypeSymlink, entryTypeFile, List.append_assoc,
      readI64LE_append h1 h2, readI64LE_append h3 h4]

theorem readEntryKind_plain (t : Nat) (ht : t ≠ entryTypeFile ∧ t ≠ entryTypeSymlink ∧
    t ≠ entryTypeHardlink ∧ t ≠ entryTypeCharDev ∧ t ≠ entryTypeBlockDev)
    (base : EntryData) (tail : List Nat) :
    readEntryKind t base tail = .ok (base, tail) := by
  simp [readEntryKind, ht.1, ht.2.1, ht.2.2.1, ht.2.2.2.1, ht.2.2.2.2]

/-- C1: Codec round-trip identity: for every wellformed entry of any
supported kind (RegularFile, Directory, Symlink, HardLink, Fifo,
CharDevice, BlockDevice), serializing with `writeEntry` and deserializing
the resulting bytes with `readEntryType`/`readEntry` yields back the same
relative path, kind tag, mode, mod/access/change times, uid, gid, and the
kind-specific payload (size and the exact content bytes for RegularFile,
link target for Symlink, link name for HardLink, major/minor for device
kinds), leaving exactly the trailing stream behind. -/
theorem writeEntry_readEntry_roundtrip (e : FileEntry) (content out rest : List Nat)
    (hwf : WFEntry e content) (hsock : e.type ≠ FileType.socket)
    (hw : writeEntry e content = .ok out) :
    ∃ body, out = tagOf e.type :: body ∧
      readEntryType (out ++ rest) = .ok (tagOf e.type, body ++ rest) ∧
      readEntry (body ++ rest) (tagOf e.type) =
        .ok (expectedData e,
          (if e.type = FileType.file then content else []) ++ rest) := by
  have hwf' := hwf
  obtain ⟨hpl, hmode, hmt1, hmt2, hat1, hat2, hct1, hct2, huid1, huid2,
    hgid1, hgid2, hsz1, hsz2, hlt, hln, hdM1, hdM2, hdm1, hdm2, hcont⟩ := hwf'
  cases htype : e.type with
  | socket => exact absurd htype hsock
  | file =>
    have hc := hcont htype
    have htake : content.take e.size.toNat = content := by
      rw [← hc]; exact List.take_length content
    have hpay : kindPayload e content = .ok (i64le e.size ++ content) := by
      simp only [kindPayload, htype]
      by_cases hpos : e.size > 0
      · rw [if_pos hpos, if_neg (by omega), htake]
      · rw [if_neg hpos]
        have hz : e.size = 0 := by omega
        have hcnil : content = [] := List.length_eq_zero.mp (by rw [hc, hz]; rfl)
        rw [hcnil, List.append_nil]
    have hout : out = tagOf FileType.file :: metaBytes e ++ (i64le e.size ++ content) := by
      simp only [writeEntry, htype, hpay] at hw
      exact (Except.ok.inj hw).symm
    refine ⟨metaBytes e ++ (i64le e.size ++ content), hout, by rw [hout]; rfl, ?_⟩
    rw [List.append_assoc]
    rw [readEntry_metaBytes e content hwf]
    rw [List.append_assoc]
    show readEntryKind entryTypeFile (baseOf e) (i64le e.size ++ (content ++ rest)) = _
    rw [readEntryKind_file (baseOf e) e.size (content ++ rest) (by omega) hsz2]
    simp [baseOf, expectedData, htype]
  | dir =>
    have hout : out = tagOf FileType.dir :: metaBytes e := by
      simp only [writeEntry, htype, kindPayload] at hw
      simpa using (Except.ok.inj hw).symm
    refine ⟨metaBytes e, hout, by rw [hout]; rfl, ?_⟩
    rw [readEntry_metaBytes e content hwf]
    rw [readEntryKind_plain _ (by refine ⟨?d1, ?d2, ?d3, ?d4, ?d5⟩ <;> decide)]
    simp [baseOf, expectedData, htype]
  | fifo =>
    have hout : out = tagOf FileType.fifo :: metaBytes e := by
      simp only [writeEntry, htype, kindPayload] at hw
      simpa using (Except.ok.inj hw).symm
    refine ⟨metaBytes e, hout, by rw [hout]; rfl, ?_⟩
    rw [readEntry_metaBytes e content hwf]
    rw [readEntryKind_plain _ (by refine ⟨?f1, ?f2, ?f3, ?f4, ?f5⟩ <;> decide)]
    simp [baseOf, expectedData, htype]
  | symlink =>
    have hout :
        out = tagOf FileType.symlink :: metaBytes e ++ (u32le e.linkTarget.length ++ e.linkTarget) := by
      simp only [writeEntry, htype, kindPayload] at hw
      exact (Except.ok.inj hw).symm
    refine ⟨metaBytes e ++ (u32le e.linkTarget.length ++ e.linkTarget), hout,
      by rw [hout]; rfl, ?_⟩
    rw [List.append_assoc]
    rw [readEntry_metaBytes e content hwf]
    rw [List.append_assoc]
    show readEntryKind entryTypeSymlink (baseOf e)
      (u32le e.linkTarget.length ++ (e.linkTarget ++ rest)) = _
    rw [readEntryKind_symlink (baseOf e) e.linkTarget rest hlt]
    simp [baseOf, expectedData, htype]
  | hardlink =>
    have hout :
        out = tagOf FileType.hardlink :: metaBytes e ++ (u32le e.linkName.length ++ e.linkName) := by
      simp only [writeEntry, htype, kindPayload] at hw
      exact (Except.ok.inj hw).symm
    refine ⟨metaBytes e ++ (u32le e.linkName.length ++ e.linkName), hout,
      by rw [hout]; rfl, ?_⟩
    rw [List.append_assoc]
    rw [readEntry_metaBytes e content hwf]
    rw [List.append_assoc]
    show readEntryKind entryTypeHardlink (baseOf e)
      (u32le e.linkName.length ++ (e.linkName ++ rest)) = _
    rw [readEntryKind_hardlink (baseOf e) e.linkName rest hln]
    simp [baseOf, expectedData, htype]
  | charDevice =>
    have hout :
        out = tagOf FileType.charDevice :: metaBytes e ++ (i64le e.devMajor ++ i64le e.devMinor) := by
      simp only [writeEntry, htype, kindPayload] at hw
      exact (Except.ok.inj hw).symm
    refine ⟨metaBytes e ++ (i64le e.devMajor ++ i64le e.devMinor), hout,
      by rw [hout]; rfl, ?_⟩
    rw [List.append_assoc]
    rw [readEntry_metaBytes e content hwf]
    rw [List.append_assoc]
    show readEntryKind entryTypeCharDev (baseOf e)
      (i64le e.devMajor ++ (i64le e.devMinor ++ rest)) = _
    rw [readEntryKind_dev entryTypeCharDev (Or.inl rfl) (baseOf e)
      e.devMajor e.devMinor rest hdM1 hdM2 hdm1 hdm2]
    simp [baseOf, expectedData, htype]
  | blockDevice =>
    have hout :
        out = tagOf FileType.blockDevice :: metaBytes e ++ (i64le e.devMajor ++ i64le e.devMinor) := by
      simp only [writeEntry, htype, kindPayload] at hw
      exact (Except.ok.inj hw).symm
    refine ⟨metaBytes e ++ (i64le e.devMajor ++ i64le e.devMinor), hout,
      by rw [hout]; rfl, ?_⟩
    rw [List.append_assoc]
    rw [readEntry_metaBytes e content hwf]
    rw [List.append_assoc]
    show readEntryKind entryTypeBlockDev (baseOf e)
      (i64le e.devMajor ++ (i64le e.devMinor ++ rest)) = _
    rw [readEntryKind_dev entryTypeBlockDev (Or.inr rfl) (baseOf e)
      e.devMajor e.devMinor rest hdM1 hdM2 hdm1 hdm2]
    simp [baseOf, expectedData, htype]

/-- Concrete regular-file entry used to witness the round-trip theorem. -/
def rtWitnessEntry : FileEntry :=
  ⟨[97], FileType.file, 420, 1, 1, 2, 3, 4, 5, [], [], 0, 0⟩

/-- The bytes `writeEntry` produces for `rtWitnessEntry` with content `[9]`. -/
def rtWitnessBytes : List Nat :=
  [1, 1, 0, 0, 0, 97, 164, 1, 0, 0, 1] ++ List.replicate 7 0 ++
    [2] ++ List.replicate 7 0 ++ [3] ++ List.replicate 7 0 ++
    [4, 0, 0, 0, 5, 0, 0, 0, 1] ++ List.replicate 7 0 ++ [9]

theorem writeEntry_readEntry_roundtrip_witness :
    WFEntry rtWitnessEntry [9] ∧ rtWitnessEntry.type ≠ FileType.socket ∧
    writeEntry rtWitnessEntry [9] = .ok rtWitnessBytes ∧
    ∃ body, rtWitnessBytes = tagOf rtWitnessEntry.type :: body ∧
      readEntryType (rtWitnessBytes ++ [0]) = .ok (tagOf rtWitnessEntry.type, body ++ [0]) ∧
      readEntry (body ++ [0]) (tagOf rtWitnessEntry.type) =
        .ok (expectedData rtWitnessEntry,
          (if rtWitnessEntry.type = FileType.file then [9] else []) ++ [0]) :=
  ⟨by decide, by decide, by rfl,
   writeEntry_readEntry_roundtrip rtWitnessEntry [9] rtWitnessBytes [0]
     (by decide) (by decide) (by rfl)⟩

/-- C6: Header validation on read: a 4-byte magic that differs from the
fixed token is rejected; a version other than 1 and 2 is rejected; for
version 2 the reader consumes one flags byte (bit0 = compression,
bit1 = encryption) plus 7 reserved bytes; for version 1 it consumes
8 reserved bytes and reports both flags as off. -/
theorem readHeader_validation :
    (∀ m rest, m.length = 4 → m ≠ magicNumber →
      readHeaderWithFlags (m ++ rest) = .error "无效的归档文件格式，魔数不匹配") ∧
    (∀ v rest, v < 4294967296 → v ≠ 1 → v ≠ 2 →
      readHeaderWithFlags (magicNumber ++ (u32le v ++ rest)) =
        .error "不支持的归档文件版本") ∧
    (∀ flags r7 rest, r7.length = 7 →
      readHeaderWithFlags (magicNumber ++ (u32le 2 ++ (flags :: (r7 ++ rest)))) =
        .ok ((decide (Nat.land flags flagCompress ≠ 0),
              decide (Nat.land flags flagEncrypt ≠ 0)), rest)) ∧
    (∀ r8 rest, r8.length = 8 →
      readHeaderWithFlags (magicNumber ++ (u32le 1 ++ (r8 ++ rest))) =
        .ok ((false, false), rest)) := by
  have hmagic : ∀ rest : List Nat,
      readBytes 4 (magicNumber ++ rest) = .ok (magicNumber, rest) := by
    intro rest
    have := readBytes_append magicNumber rest
    simpa using this
  refine ⟨?g1, ?g2, ?g3, ?g4⟩
  · intro m rest hlen hne
    have hrb : readBytes 4 (m ++ rest) = .ok (m, rest) := by
      have := readBytes_append m rest
      rwa [hlen] at this
    simp [readHeaderWithFlags, hrb, hne]
  · intro v rest hv h1 h2
    have hcase : v < 1 ∨ v > formatVersion := by
      simp only [formatVersion]; omega
    simp [readHeaderWithFlags, hmagic, readU32LE_append hv, hcase]
    intro h3 h4
    exfalso
    simp only [formatVersion] at h4
    omega
  · intro flags r7 rest h7
    have h2lt : (2 : Nat) < 4294967296 := by omega
    have hr7 : readBytes 7 (r7 ++ rest) = .ok (r7, rest) := by
      have := readBytes_append r7 rest
      rwa [h7] at this
    simp [readHeaderWithFlags, hmagic, readU32LE_append h2lt, formatVersion,
      readU8, hr7]
  · intro r8 rest h8
    have h1lt : (1 : Nat) < 4294967296 := by omega
    have hr8 : readBytes 8 (r8 ++ rest) = .ok (r8, rest) := by
      have := readBytes_append r8 rest
      rwa [h8] at this
    simp [readHeaderWithFlags, hmagic, readU32LE_append h1lt, formatVersion, hr8]

theorem readHeader_validation_witness :
    ([0, 0, 0, 0] : List Nat).length = 4 ∧ ([0, 0, 0, 0] : List Nat) ≠ magicNumber ∧
    readHeaderWithFlags ([0, 0, 0, 0] ++ []) = .error "无效的归档文件格式，魔数不匹配" ∧
    readHeaderWithFlags (magicNumber ++ (u32le 3 ++ [])) = .error "不支持的归档文件版本" ∧
    readHeaderWithFlags (magicNumber ++ (u32le 2 ++ (3 :: (List.replicate 7 0 ++ [9])))) =
      .ok ((decide (Nat.land 3 flagCompress ≠ 0),
            decide (Nat.land 3 flagEncrypt ≠ 0)), [9]) ∧
    readHeaderWithFlags (magicNumber ++ (u32le 1 ++ (List.replicate 8 0 ++ [9]))) =
      .ok ((false, false), [9]) :=
  ⟨by decide, by decide,
   readHeader_validation.1 [0, 0, 0, 0] [] (by rfl) (by decide),
   readHeader_validation.2.1 3 [] (by omega) (by omega) (by omega),
   readHeader_validation.2.2.1 3 (List.replicate 7 0) [9] (by rfl),
   readHeader_validation.2.2.2 (List.replicate 8 0) [9] (by rfl)⟩

/-! ## Filter engine (src/internal/backup/filter.go)

`filepath.Match` is a Go standard-library call; it is modelled below by a
recursive matcher with Go's documented semantics over ASCII bytes and the
slash separator: `*` matches any run of non-separator characters, `?` one
non-separator character, `[...]` character classes with `^` negation and
`-` ranges (classes may match the separator, as in Go), `\` escapes the
next character, and a malformed pattern never matches because the call
sites discard `ErrBadPattern`. -/

/-- Model of Go filepath's `getEsc`: read one class character, rejecting an
empty chunk, a leading `-` or `]`, a trailing backslash, and a character not
followed by anything (the class still needs its `]`). -/
def getEsc (p : List Nat) : Option (Nat × List Nat) :=
  match p with
  | [] => none
  | c0 :: rest0 =>
    if c0 = 45 ∨ c0 = 93 then none
    else
      match (if c0 = 92 then rest0 else p) with
      | [] => none
      | c :: r => if r.isEmpty then none else some (c, r)

theorem getEsc_length {p : List Nat} {c : Nat} {r : List Nat}
    (hg : getEsc p = some (c, r)) : r.length < p.length := by
  match p with
  | [] => simp [getEsc] at hg
  | c0 :: rest0 =>
    simp only [getEsc] at hg
    split at hg
    · simp at hg
    · split at hg
      · simp at hg
      · rename_i q cq rq heq
        split at hg
        · simp at hg
        · simp at hg
          obtain ⟨rfl, rfl⟩ := hg
          split at heq
          · cases heq
            simp
            omega
          · cases heq
            simp

/-- Parse the range list of a character class, per the loop in Go
filepath's `matchChunk` `[` case: a `]` terminates once at least one range
has been read; each range is `lo` or `lo-hi` via `getEsc`. -/
def parseRanges (first : Bool) (p : List Nat) : Option (List (Nat × Nat) × List Nat) :=
  if ¬first ∧ p.head? = some 93 then some ([], p.tail)
  else
    match hget : getEsc p with
    | none => none
    | some (lo, r1) =>
      if r1.head? = some 45 then
        match hget2 : getEsc r1.tail with
        | none => none
        | some (hi, r3) =>
          match parseRanges false r3 with
          | none => none
          | some (ranges, rest) => some ((lo, hi) :: ranges, rest)
      else
        match parseRanges false r1 with
        | none => none
        | some (ranges, rest) => some ((lo, lo) :: ranges, rest)
termination_by p.length
decreasing_by
  · have h1 := getEsc_length hget
    have h2 := getEsc_length hget2
    have h3 : r1.tail.length ≤ r1.length := by
      cases r1 <;> simp
    omega
  · have h1 := getEsc_length hget
    omega

theorem parseRanges_length : ∀ (n : Nat) (first : Bool) (p : List Nat)
    (rs : List (Nat × Nat)) (rest : List Nat),
    p.length ≤ n → parseRanges first p = some (rs, rest) → rest.length < p.length := by
  intro n
  induction n with
  | zero =>
    intro first p rs rest hlen h
    match p with
    | [] => simp [parseRanges, getEsc] at h
    | _ :: _ => simp at hlen
  | succ n ih =>
    intro first p rs rest hlen h
    rw [parseRanges] at h
    split at h
    · rename_i hcond
      simp at h
      obtain ⟨-, rfl⟩ := h
      obtain ⟨-, hh⟩ := hcond
      match p, hh with
      | c :: t, _ => simp
    · split at h
      · simp at h
      · rename_i lo r1 hget
        have hg1 := getEsc_length hget
        split at h
        · split at h
          · simp at h
          · rename_i hi r3 hget2
            have hg2 := getEsc_length hget2
            have htl : r1.tail.length ≤ r1.length := by cases r1 <;> simp
            split at h
            · simp at h
            · rename_i rs0 rest0 hrec
              simp at h
              obtain ⟨-, rfl⟩ := h
              have := ih false r3 rs0 rest0 (by omega) hrec
              omega
        · split at h
          · simp at h
          · rename_i rs0 rest0 hrec
            simp at h
            obtain ⟨-, rfl⟩ := h
            have := ih false r1 rs0 rest0 (by omega) hrec
            omega

/-- The `^` negation flag of a character class. -/
def classNegated (pr : List Nat) : Bool := decide (pr.head? = some 94)

/-- The class body after an optional leading `^`. -/
def classBody (pr : List Nat) : List Nat :=
  if pr.head? = some 94 then pr.tail else pr

theorem classBody_length (pr : List Nat) : (classBody pr).length ≤ pr.length := by
  unfold classBody
  split
  · cases pr <;> simp
  · exact le_refl _

/-- Model of Go `filepath.Match` over ASCII bytes with the `/` separator:
`*` matches any run of non-separator characters, `?` a single non-separator
character, `[...]` classes (which, as in Go, may match the separator) with
`^` negation and `-` ranges, `\` escapes the next character.  A malformed
pattern yields `false`, matching the call sites
`match, _ := filepath.Match(...)` which discard `ErrBadPattern`. -/
def globMatch (p s : List Nat) : Bool :=
  match p, s with
  | [], s => s.isEmpty
  | 42 :: pr, s =>
    globMatch pr s ||
      (match s with
       | [] => false
       | c :: sr => decide (c ≠ 47) && globMatch (42 :: pr) sr)
  | 63 :: pr, s =>
    (match s with
     | [] => false
     | _c :: sr => decide (_c ≠ 47) && globMatch pr sr)
  | 91 :: pr, s =>
    (match hpr : parseRanges true (classBody pr) with
     | none => false
     | some (ranges, prest) =>
       match s with
       | [] => false
       | c :: sr =>
         ((ranges.any fun lh => decide (lh.1 ≤ c ∧ c ≤ lh.2)) != classNegated pr) &&
           globMatch prest sr)
  | 92 :: [], _ => false
  | 92 :: c :: pr, s =>
    (match s with
     | [] => false
     | d :: sr => decide (d = c) && globMatch pr sr)
  | c :: pr, s =>
    (match s with
     | [] => false
     | d :: sr => decide (d = c) && globMatch pr sr)
termination_by p.length + s.length
decreasing_by
  all_goals
    first
    | (simp; done)
    | (simp; omega)
    | (have h1 := parseRanges_length (classBody pr).length true (classBody pr)
         ranges prest (le_refl _) hpr
       have h2 := classBody_length pr
       simp
       omega)

/-- Model of `strings.Contains(pattern, "**")`. -/
def containsSS : List Nat → Bool
  | [] => false
  | c :: r => if c = 42 ∧ r.head? = some 42 then true else containsSS r

/-- Model of `strings.Replace(pattern, "**", "", 1)`: delete the first
occurrence of `**`. -/
def replaceFirstSS : List Nat → List Nat
  | [] => []
  | c :: r => if c = 42 ∧ r.head? = some 42 then r.tail else c :: replaceFirstSS r

/-- The text of the pattern strictly before the first `**` occurrence. -/
def beforeSS : List Nat → List Nat
  | [] => []
  | c :: r => if c = 42 ∧ r.head? = some 42 then [] else c :: beforeSS r

/-- The text of the pattern strictly after the first `**` occurrence. -/
def afterSS : List Nat → List Nat
  | [] => []
  | c :: r => if c = 42 ∧ r.head? = some 42 then r.tail else afterSS r

/-- The recursive-glob extension branch of `Filter.Match`
(src/internal/backup/filter.go lines 40-47 and 60-65): a pattern containing
`**` additionally matches when the pattern with its first `**` occurrence
removed is a literal prefix of the relative path. -/
def ssExtMatch (pattern path : List Nat) : Bool :=
  containsSS pattern && (replaceFirstSS pattern).isPrefixOf path

/-- One include/exclude path-pattern test from `Filter.Match`: plain
`filepath.Match` or the recursive-glob approximation. -/
def pathPatMatch (pattern path : List Nat) : Bool :=
  globMatch pattern path || ssExtMatch pattern path

/-- Model of `filepath.Base` (Unix): empty path gives `"."`, trailing
slashes are dropped, an all-slash path gives `"/"`, otherwise the suffix
after the last slash. -/
def baseName (p : List Nat) : List Nat :=
  if p = [] then [46]
  else
    match (p.reverse.dropWhile fun c => c = 47).reverse with
    | [] => [47]
    | q => ((q.reverse.takeWhile fun c => ¬ c = 47).reverse)

/-- Filter mirrors the Go `Filter` struct (src/internal/backup/filter.go
lines 10-28).  The `*time.Time` bounds are modelled as optional Unix-second
values, matching how `Filter.Match` compares them against
`time.Unix(entry.ModTime, 0)`. -/
structure Filter where
  PathPatterns : List (List Nat)
  ExcludePaths : List (List Nat)
  IncludeTypes : List FileType
  NamePatterns : List (List Nat)
  MinModTime : Option Int
  MaxModTime : Option Int
  MinSize : Option Int
  MaxSize : Option Int

/-- Model of `Filter.Match` (src/internal/backup/filter.go lines 31-123):
the predicate categories are tested in order, each failing category
returning false; size bounds are tested only for regular files. -/
def Filter.Match (f : Filter) (e : FileEntry) : Bool :=
  if f.PathPatterns.length > 0 &&
      !(f.PathPatterns.any fun pat => pathPatMatch pat e.relPath) then false
  else if f.ExcludePaths.any fun pat => pathPatMatch pat e.relPath then false
  else if f.IncludeTypes.length > 0 &&
      !(f.IncludeTypes.any fun t => decide (e.type = t)) then false
  else if f.NamePatterns.length > 0 &&
      !(f.NamePatterns.any fun pat => globMatch pat (baseName e.relPath)) then false
  else if (match f.MinModTime with
           | some mn => decide (e.modTime < mn)
           | none => false) then false
  else if (match f.MaxModTime with
           | some mx => decide (mx < e.modTime)
           | none => false) then false
  else if decide (e.type = FileType.file) &&
      (match f.MinSize with
       | some mn => decide (e.size < mn)
       | none => false) then false
  else if decide (e.type = FileType.file) &&
      (match f.MaxSize with
       | some mx => decide (mx < e.size)
       | none => false) then false
  else true

/-- Model of `ApplyFilter` (src/internal/backup/filter.go lines 126-138):
a nil filter is the identity, otherwise keep exactly the matching entries
in order. -/
def ApplyFilter (entries : List FileEntry) (filter : Option Filter) : List FileEntry :=
  match filter with
  | none => entries
  | some f => entries.filter fun e => f.Match e

/-- C9: Filter application is a monotone selection: for every entry list
and every (optional) filter, `ApplyFilter` returns a subsequence of the
input (a subset preserving input order), and the nil/absent filter is the
identity. -/
theorem applyFilter_sublist_nil_identity :
    ∀ (entries : List FileEntry) (filter : Option Filter),
      (ApplyFilter entries filter).Sublist entries ∧ ApplyFilter entries none = entries := by
  intro entries filter
  refine ⟨?_, rfl⟩
  match filter with
  | none => exact List.Sublist.refl entries
  | some f => exact List.filter_sublist entries

theorem replaceFirstSS_eq (p : List Nat) :
    replaceFirstSS p = beforeSS p ++ afterSS p := by
  induction p with
  | nil => rfl
  | cons c r ih =>
    by_cases h : c = 42 ∧ r.head? = some 42
    · simp [replaceFirstSS, beforeSS, afterSS, h]
    · simp [replaceFirstSS, beforeSS, afterSS, h, ih]

/-- Claim C7 as stated: for every pattern containing `**` and every path,
the extension beyond plain glob matching holds exactly when the text of the
pattern before the first `**` occurrence is a literal prefix of the path. -/
def recursiveGlobClaim : Prop :=
  ∀ pattern path : List Nat, containsSS pattern = true →
    (ssExtMatch pattern path = true ↔ (beforeSS pattern).isPrefixOf path = true)

/-- C7 counterexample: for pattern "a**b" and path "a" the text before the
first `**` ("a") is a literal prefix of the path, but the code tests the
pattern with its first `**` deleted ("ab"), which is not a prefix, so the
extension does not match and the claim as stated is false. -/
theorem recursive_glob_claim_counterexample : ¬ recursiveGlobClaim := by
  intro h
  have hinst := h [97, 42, 42, 98] [97] (by decide)
  revert hinst
  decide

/-- C7 (amended): for every include or exclude pattern containing `**` and
every entry relative path, the pattern matches the path beyond plain glob
matching exactly when the path has, as a literal string prefix, the
pattern with its first `**` occurrence deleted — that is, the text before
the first `**` concatenated with the text after it. -/
theorem recursive_glob_prefix_match (pattern path : List Nat)
    (h : containsSS pattern = true) :
    ssExtMatch pattern path = true ↔
      ((beforeSS pattern ++ afterSS pattern).isPrefixOf path) = true := by
  simp [ssExtMatch, h, replaceFirstSS_eq]

theorem recursive_glob_prefix_match_witness :
    containsSS [97, 42, 42] = true ∧
    (ssExtMatch [97, 42, 42] [97, 98] = true ↔
      ((beforeSS [97, 42, 42] ++ afterSS [97, 42, 42]).isPrefixOf [97, 98]) = true) :=
  ⟨by decide, recursive_glob_prefix_match [97, 42, 42] [97, 98] (by decide)⟩

/-- C8: Size filter boundary: with min/max size bounds configured, a
regular-file entry is retained exactly when the remaining categories pass
and `minSize ≤ size ≤ maxSize` (inclusive bounds, so equality at either
bound retains and one byte outside either bound excludes), while entries
of every other kind pass the size checks unconditionally (their result
ignores the bounds entirely). -/
theorem size_filter_boundary (f : Filter) (e : FileEntry) (mn mx : Int)
    (hmn : f.MinSize = some mn) (hmx : f.MaxSize = some mx) :
    (e.type = FileType.file →
      (f.Match e = true ↔
        (Filter.Match { f with MinSize := none, MaxSize := none } e = true ∧
          mn ≤ e.size ∧ e.size ≤ mx))) ∧
    (e.type ≠ FileType.file →
      f.Match e = Filter.Match { f with MinSize := none, MaxSize := none } e) := by
  constructor
  · intro ht
    simp only [Filter.Match, hmn, hmx, ht]
    split_ifs <;> simp_all
  · intro ht
    have hd : decide (e.type = FileType.file) = false := by simp [ht]
    simp only [Filter.Match, hmn, hmx, hd]
    simp

/-- Concrete size-bounded filter for the boundary witness. -/
def sizeWF : Filter := ⟨[], [], [], [], none, none, some 10, some 20⟩

/-- Concrete regular-file entry sitting exactly on the lower bound. -/
def sizeWE : FileEntry := ⟨[97], FileType.file, 420, 10, 0, 0, 0, 0, 0, [], [], 0, 0⟩

theorem size_filter_boundary_witness :
    sizeWF.MinSize = some 10 ∧ sizeWF.MaxSize = some 20 ∧
    ((sizeWE.type = FileType.file →
      (sizeWF.Match sizeWE = true ↔
        (Filter.Match { sizeWF with MinSize := none, MaxSize := none } sizeWE = true ∧
          10 ≤ sizeWE.size ∧ sizeWE.size ≤ 20))) ∧
     (sizeWE.type ≠ FileType.file →
      sizeWF.Match sizeWE = Filter.Match { sizeWF with MinSize := none, MaxSize := none } sizeWE)) :=
  ⟨rfl, rfl, size_filter_boundary sizeWF sizeWE 10 20 rfl rfl⟩

/-! ## Filesystem scanner hard-link handling (src/scanpath.go) -/

/-- The stat information of one object visited by the `WalkDir` callback of
`ScanPath`, as relevant to hard-link handling: the computed relative path,
the classified kind, and the `syscall.Stat_t` link count, inode and device
numbers. -/
structure ScanRec where
  relPath : List Nat
  type : FileType
  nlink : Nat
  ino : Nat
  dev : Nat
deriving DecidableEq, Repr

/-- The fields of an emitted entry that hard-link handling decides: the
relative path (with the trailing separator appended for directories), the
possibly downgraded kind, and the hard-link name. -/
structure ScanOut where
  relPath : List Nat
  type : FileType
  linkName : List Nat
deriving DecidableEq, Repr

/-- Go map lookup for the inode-keyed `hardlinkMap`, modelled as an
association list (a key is inserted at most once). -/
def hlLookup : List (Nat × List Nat) → Nat → Option (List Nat)
  | [], _ => none
  | (k, v) :: rest, ino => if k = ino then some v else hlLookup rest ino

/-- One iteration of the `WalkDir` callback body (src/scanpath.go lines
60-84): a regular file with link count > 1 whose inode was seen before is
downgraded to a hard link pointing at the first path recorded for that
inode (the Go code stores the absolute path and recomputes the same
relative form with `filepath.Rel`; the model stores the relative form
directly); afterwards directories get a trailing separator. -/
def scanStep (st : List (Nat × List Nat)) (r : ScanRec) :
    ScanOut × List (Nat × List Nat) :=
  let e0 : ScanOut := ⟨r.relPath, r.type, []⟩
  let step :=
    if r.nlink > 1 ∧ r.type = FileType.file then
      match hlLookup st r.ino with
      | some first => ((⟨r.relPath, FileType.hardlink, first⟩ : ScanOut), st)
      | none => (e0, (r.ino, r.relPath) :: st)
    else (e0, st)
  let e1 := step.1
  let e2 :=
    if e1.type = FileType.dir ∧ e1.relPath ≠ [46] ∧ e1.relPath.getLast? ≠ some 47 then
      (⟨e1.relPath ++ [47], e1.type, e1.linkName⟩ : ScanOut)
    else e1
  (e2, step.2)

/-- The entry sequence emitted by the `WalkDir` loop, threading the
hard-link map through the traversal. -/
def scanEntries : List ScanRec → List (Nat × List Nat) → List ScanOut
  | [], _ => []
  | r :: rs, st => (scanStep st r).1 :: scanEntries rs (scanStep st r).2

/-- The relative path of the first regular-file record with link count > 1
carrying the given inode. -/
def firstFileIno : List ScanRec → Nat → Option (List Nat)
  | [], _ => none
  | r :: rs, ino =>
    if r.ino = ino ∧ r.type = FileType.file ∧ r.nlink > 1 then some r.relPath
    else firstFileIno rs ino

/-- The relative path of the first regular-file record with link count > 1
carrying the given (device, inode) identity. -/
def firstFileDevIno : List ScanRec → Nat → Nat → Option (List Nat)
  | [], _, _ => none
  | r :: rs, dev, ino =>
    if r.dev = dev ∧ r.ino = ino ∧ r.type = FileType.file ∧ r.nlink > 1 then
      some r.relPath
    else firstFileDevIno rs dev ino

/-- Claim C3 as stated: every regular-file record (link count > 1) that
shares its (device, inode) identity with an earlier such record is emitted
as a HardLink whose linkName is the relative path of the first record seen
with that (device, inode) identity. -/
def scanHardlinkClaim : Prop :=
  ∀ (recs : List ScanRec) (j : Nat) (r : ScanRec), recs[j]? = some r →
    r.type = FileType.file → r.nlink > 1 →
    (∃ i ri, i < j ∧ recs[i]? = some ri ∧ ri.dev = r.dev ∧ ri.ino = r.ino ∧
      ri.type = FileType.file ∧ ri.nlink > 1) →
    ((scanEntries recs [])[j]?.map fun o => (o.type, o.linkName)) =
      ((firstFileDevIno recs r.dev r.ino).map fun p => (FileType.hardlink, p))

/-- Records refuting claim C3: the scanner keys its map by inode alone, so
the third record (device 2, inode 5) is linked to the first record (device
1, inode 5) instead of the second (device 2, inode 5), the first record
seen with its identity. -/
def scanCERecs : List ScanRec :=
  [⟨[97], FileType.file, 2, 5, 1⟩, ⟨[98], FileType.file, 2, 5, 2⟩,
   ⟨[99], FileType.file, 2, 5, 2⟩]

/-- C3 counterexample: on `scanCERecs` the record at index 2 shares
identity (device 2, inode 5) with the record at index 1, yet its emitted
linkName is "a" (the inode-5 record on device 1), not "b". -/
theorem scan_hardlink_claim_counterexample : ¬ scanHardlinkClaim := by
  intro h
  have hinst := h scanCERecs 2 ⟨[99], FileType.file, 2, 5, 2⟩ (by rfl) (by rfl)
    Nat.one_lt_two
    ⟨1, ⟨[98], FileType.file, 2, 5, 2⟩, Nat.one_lt_two, rfl, rfl, rfl, rfl,
     Nat.one_lt_two⟩
  revert hinst
  decide

theorem firstFileIno_append (pre : List ScanRec) (r0 : ScanRec) (ino : Nat) :
    firstFileIno (pre ++ [r0]) ino =
      (match firstFileIno pre ino with
       | some p => some p
       | none =>
         if r0.ino = ino ∧ r0.type = FileType.file ∧ r0.nlink > 1 then some r0.relPath
         else none) := by
  induction pre with
  | nil => simp [firstFileIno]
  | cons q qs ihq =>
    by_cases hq : q.ino = ino ∧ q.type = FileType.file ∧ q.nlink > 1
    · simp [firstFileIno, hq]
    · simp [firstFileIno, hq, ihq]

theorem hlLookup_scanStep (st : List (Nat × List Nat)) (pre : List ScanRec)
    (r0 : ScanRec) (hinv : ∀ ino, hlLookup st ino = firstFileIno pre ino) :
    ∀ ino, hlLookup (scanStep st r0).2 ino = firstFileIno (pre ++ [r0]) ino := by
  intro ino
  rw [firstFileIno_append]
  simp only [scanStep]
  by_cases hc : r0.nlink > 1 ∧ r0.type = FileType.file
  · rw [if_pos hc]
    match hl : hlLookup st r0.ino with
    | some first =>
      simp only [hinv]
      match hfp : firstFileIno pre ino with
      | some p => rfl
      | none =>
        by_cases hi : r0.ino = ino
        · subst hi
          rw [hinv] at hl
          rw [hl] at hfp
          cases hfp
        · simp [hi]
    | none =>
      simp only [hlLookup]
      by_cases hi : r0.ino = ino
      · subst hi
        rw [hinv] at hl
        simp [hl, hc.2, hc.1]
      · simp [hi, hinv]
        cases firstFileIno pre ino <;> rfl
  · rw [if_neg hc]
    simp only [hinv]
    match hfp : firstFileIno pre ino with
    | some p => rfl
    | none =>
      have : ¬ (r0.ino = ino ∧ r0.type = FileType.file ∧ r0.nlink > 1) := by
        intro hcon
        exact hc ⟨hcon.2.2, hcon.2.1⟩
      simp [this]

theorem scanEntries_inode (recs : List ScanRec) : ∀ (st : List (Nat × List Nat))
    (pre : List ScanRec), (∀ ino, hlLookup st ino = firstFileIno pre ino) →
    ∀ (j : Nat) (r : ScanRec), recs[j]? = some r →
      r.type = FileType.file → r.nlink > 1 →
      ((scanEntries recs st)[j]?.map fun o => (o.type, o.linkName)) =
        some (match firstFileIno (pre ++ recs.take j) r.ino with
              | some p => (FileType.hardlink, p)
              | none => (FileType.file, ([] : List Nat))) := by
  induction recs with
  | nil =>
    intro st pre hinv j r hj
    simp at hj
  | cons r0 rs ih =>
    intro st pre hinv j r hj hf hn
    match j with
    | 0 =>
      have hr0 : r0 = r := by simpa using hj
      subst hr0
      simp only [List.take_zero, List.append_nil, scanEntries,
        List.getElem?_cons_zero, Option.map_some]
      match hl : hlLookup st r0.ino with
      | some first =>
        have hl2 := hl
        rw [hinv] at hl2
        rw [hl2]
        simp [scanStep, hl, hn, hf]
      | none =>
        have hl2 := hl
        rw [hinv] at hl2
        rw [hl2]
        simp [scanStep, hl, hn, hf]
    | j + 1 =>
      simp only [List.getElem?_cons_succ] at hj
      simp only [scanEntries, List.getElem?_cons_succ]
      have := ih (scanStep st r0).2 (pre ++ [r0])
        (hlLookup_scanStep st pre r0 hinv) j r hj hf hn
      rw [this]
      simp [List.append_assoc]

/-- C3 (amended): the scanner's hard-link map is keyed by inode alone, not
by (device, inode): for every scan, a regular-file record with link count
> 1 is emitted as a HardLink exactly when an earlier regular-file record
with link count > 1 carries the same inode — regardless of device — and
its linkName is then the relative path of the first such record; when no
earlier record shares the inode the entry keeps its RegularFile kind (so
at most one entry per inode, and hence at most one per (device, inode)
pair, is emitted as a non-hard-link kind among such records). -/
theorem scan_hardlink_inode_invariant (recs : List ScanRec) (j : Nat) (r : ScanRec)
    (hj : recs[j]? = some r) (hf : r.type = FileType.file) (hn : r.nlink > 1) :
    ((scanEntries recs [])[j]?.map fun o => (o.type, o.linkName)) =
      some (match firstFileIno (recs.take j) r.ino with
            | some p => (FileType.hardlink, p)
            | none => (FileType.file, ([] : List Nat))) := by
  have h := scanEntries_inode recs [] [] (fun _ => rfl) j r hj hf hn
  simpa using h

/-- Records witnessing the amended C3 theorem. -/
def scanWRecs : List ScanRec :=
  [⟨[97], FileType.file, 2, 5, 1⟩, ⟨[98], FileType.file, 2, 5, 1⟩]

theorem scan_hardlink_inode_invariant_witness :
    scanWRecs[1]? = some ⟨[98], FileType.file, 2, 5, 1⟩ ∧
    (⟨[98], FileType.file, 2, 5, 1⟩ : ScanRec).type = FileType.file ∧
    (⟨[98], FileType.file, 2, 5, 1⟩ : ScanRec).nlink > 1 ∧
    ((scanEntries scanWRecs [])[1]?.map fun o => (o.type, o.linkName)) =
      some (match firstFileIno (scanWRecs.take 1) 5 with
            | some p => (FileType.hardlink, p)
            | none => (FileType.file, ([] : List Nat))) :=
  ⟨by rfl, by rfl, Nat.one_lt_two,
   scan_hardlink_inode_invariant scanWRecs 1 ⟨[98], FileType.file, 2, 5, 1⟩
     (by rfl) (by rfl) Nat.one_lt_two⟩

/-! ## Lexical path handling (Go path/filepath)

`filepath.Join`, `filepath.Rel` and the path-escape check of
`UnpackWithOptions` are purely lexical.  They are modelled at the level of
path segments: the restore root (produced by `filepath.Abs`, hence cleaned
and absolute) is given by its segment list, whose segments are nonempty
and none of them `.` or `..`. -/

/-- Split a byte path on the `/` separator. -/
def splitSlash : List Nat → List (List Nat)
  | [] => [[]]
  | c :: r =>
    if c = 47 then [] :: splitSlash r
    else
      match splitSlash r with
      | seg :: rest => (c :: seg) :: rest
      | [] => [[c]]

/-- One step of lexical cleaning for a rooted path (Go `filepath.Clean`):
empty and `.` segments are dropped, `..` pops the previous segment and is
dropped at the root, anything else is pushed.  The accumulator holds the
output segments in reverse; since the path is rooted the stack never holds
a `..`, so the pop is unconditional. -/
def cleanStep (out : List (List Nat)) (seg : List Nat) : List (List Nat) :=
  if seg = [] ∨ seg = [46] then out
  else if seg = [46, 46] then
    match out with
    | _ :: rest => rest
    | [] => []
  else seg :: out

/-- Segments of `filepath.Clean` of the rooted path with segments `segs`. -/
def cleanSegsRooted (segs : List (List Nat)) : List (List Nat) :=
  (segs.foldl cleanStep []).reverse

/-- Segments of `filepath.Join(root, rel)` for a root given by its cleaned
rooted segments `R`: Go concatenates with a separator and cleans. -/
def joinSegs (R : List (List Nat)) (rel : List Nat) : List (List Nat) :=
  cleanSegsRooted (R ++ splitSlash rel)

/-- Length of the longest common segment prefix. -/
def commonPrefixLen : List (List Nat) → List (List Nat) → Nat
  | a :: as, b :: bs => if a = b then commonPrefixLen as bs + 1 else 0
  | _, _ => 0

/-- Segments of `filepath.Rel(base, targ)` for cleaned rooted base and
target: strip the common prefix, one `..` per remaining base segment, then
the remaining target segments. -/
def relSegs (base targ : List (List Nat)) : List (List Nat) :=
  List.replicate (base.length - commonPrefixLen base targ) [46, 46] ++
    targ.drop (commonPrefixLen base targ)

/-- Render `filepath.Rel`'s result: segments joined by `/`, the empty
segment list rendering as `.` exactly as `Rel` returns `.` for equal
paths. -/
def joinSegsStr : List (List Nat) → List Nat
  | [] => [46]
  | [s] => s
  | s :: rest => s ++ 47 :: joinSegsStr rest

/-- The byte string returned by `filepath.Rel(base, targ)`. -/
def relString (base targ : List (List Nat)) : List Nat :=
  joinSegsStr (relSegs base targ)

/-- The path-escape check of `UnpackWithOptions` (unpack.go lines
133-141): join the entry path onto the root, take the result's path
relative to the root, and reject when it begins with the two bytes "..". -/
def escapeCheck (R : List (List Nat)) (relPath : List Nat) : Bool :=
  [46, 46].isPrefixOf (relString R (joinSegs R relPath))

/-- What `filepath.Abs` guarantees of the restore root's segments. -/
def WFRoot (R : List (List Nat)) : Prop :=
  ∀ seg ∈ R, seg ≠ [] ∧ seg ≠ [46] ∧ seg ≠ [46, 46] ∧ ¬ 47 ∈ seg

/-- The entry's relative path resolves to a destination outside the target
directory: the cleaned joined path does not lie under the root. -/
def resolvesOutside (R : List (List Nat)) (relPath : List Nat) : Prop :=
  ¬ R <+: joinSegs R relPath

instance (R : List (List Nat)) : Decidable (WFRoot R) := by
  unfold WFRoot
  infer_instance

instance (R : List (List Nat)) (relPath : List Nat) :
    Decidable (resolvesOutside R relPath) := by
  unfold resolvesOutside
  infer_instance

theorem cleanStep_push (out : List (List Nat)) (seg : List Nat)
    (h1 : seg ≠ []) (h2 : seg ≠ [46]) (h3 : seg ≠ [46, 46]) :
    cleanStep out seg = seg :: out := by
  simp [cleanStep, h1, h2, h3]

theorem foldl_cleanStep_wf (R : List (List Nat)) (hR : WFRoot R) :
    ∀ acc, R.foldl cleanStep acc = R.reverse ++ acc := by
  induction R with
  | nil => intro acc; rfl
  | cons seg rs ih =>
    intro acc
    have hseg := hR seg (by simp)
    have hrs : WFRoot rs := fun s hs => hR s (by simp [hs])
    simp only [List.foldl_cons, cleanStep_push acc seg hseg.1 hseg.2.1 hseg.2.2.1]
    rw [ih hrs (seg :: acc)]
    simp

theorem commonPrefixLen_le (a b : List (List Nat)) :
    commonPrefixLen a b ≤ a.length := by
  induction a generalizing b with
  | nil => simp [commonPrefixLen]
  | cons x xs ih =>
    match b with
    | [] => simp [commonPrefixLen]
    | y :: ys =>
      by_cases hxy : x = y
      · simp only [commonPrefixLen, if_pos hxy, List.length_cons]
        have := ih ys
        omega
      · simp [commonPrefixLen, hxy]

theorem prefix_of_commonPrefixLen (a b : List (List Nat))
    (h : commonPrefixLen a b = a.length) : a <+: b := by
  induction a generalizing b with
  | nil => simp
  | cons x xs ih =>
    match b with
    | [] => simp [commonPrefixLen] at h
    | y :: ys =>
      by_cases hxy : x = y
      · subst hxy
        rw [show commonPrefixLen (x :: xs) (x :: ys) = commonPrefixLen xs ys + 1 by
          simp [commonPrefixLen]] at h
        simp only [List.length_cons] at h
        obtain ⟨t, rfl⟩ := ih ys (by omega)
        exact ⟨t, rfl⟩
      · rw [show commonPrefixLen (x :: xs) (y :: ys) = 0 by
          simp [commonPrefixLen, hxy]] at h
        exact absurd h.symm (by simp)

theorem isPrefixOf_dotdot_joinStr (rest : List (List Nat)) :
    ([46, 46] : List Nat).isPrefixOf (joinSegsStr ([46, 46] :: rest)) = true := by
  match rest with
  | [] => rfl
  | s :: r => rfl

theorem escapeCheck_of_outside {R : List (List Nat)} {p : List Nat}
    (h : resolvesOutside R p) : escapeCheck R p = true := by
  unfold resolvesOutside at h
  unfold escapeCheck relString
  have hle := commonPrefixLen_le R (joinSegs R p)
  have hne : commonPrefixLen R (joinSegs R p) ≠ R.length := by
    intro heq
    exact h (prefix_of_commonPrefixLen _ _ heq)
  have hlt : commonPrefixLen R (joinSegs R p) < R.length := by omega
  unfold relSegs
  have hk : R.length - commonPrefixLen R (joinSegs R p) =
      (R.length - commonPrefixLen R (joinSegs R p) - 1) + 1 := by omega
  rw [hk, List.replicate_succ]
  simp only [List.cons_append]
  exact isPrefixOf_dotdot_joinStr _

theorem splitSlash_single {p : List Nat} (h : ¬ 47 ∈ p) : splitSlash p = [p] := by
  induction p with
  | nil => rfl
  | cons c r ih =>
    have hc : c ≠ 47 := by intro hc; exact h (by simp [hc])
    have hr : ¬ 47 ∈ r := by intro hr; exact h (by simp [hr])
    simp [splitSlash, hc, ih hr]

theorem joinSegs_single {R : List (List Nat)} (hR : WFRoot R) {seg : List Nat}
    (h1 : seg ≠ []) (h2 : seg ≠ [46]) (h3 : seg ≠ [46, 46]) (h4 : ¬ 47 ∈ seg) :
    joinSegs R seg = R ++ [seg] := by
  unfold joinSegs cleanSegsRooted
  rw [splitSlash_single h4]
  rw [List.foldl_append]
  rw [foldl_cleanStep_wf R hR []]
  simp only [List.append_nil, List.foldl_cons, List.foldl_nil]
  rw [cleanStep_push _ seg h1 h2 h3]
  simp

theorem commonPrefixLen_append (a s : List (List Nat)) :
    commonPrefixLen a (a ++ s) = a.length := by
  induction a with
  | nil => simp [commonPrefixLen]
  | cons x xs ih => simp [commonPrefixLen, ih]

/-! ## Restore loop (src/internal/backup/unpack.go lines 104-184) -/

theorem readU32LE_le {s : List Nat} {n : Nat} {rest : List Nat}
    (h : readU32LE s = .ok (n, rest)) : rest.length ≤ s.length := by
  unfold readU32LE at h
  split at h
  · simp at h
  · rename_i p heq
    simp at h
    obtain ⟨-, rfl⟩ := h
    have := readBytes_length heq
    omega

theorem readI64LE_le {s : List Nat} {v : Int} {rest : List Nat}
    (h : readI64LE s = .ok (v, rest)) : rest.length ≤ s.length := by
  unfold readI64LE at h
  split at h
  · simp at h
  · rename_i p heq
    simp at h
    obtain ⟨-, rfl⟩ := h
    have := readBytes_length heq
    omega

theorem readI32LE_le {s : List Nat} {v : Int} {rest : List Nat}
    (h : readI32LE s = .ok (v, rest)) : rest.length ≤ s.length := by
  unfold readI32LE at h
  split at h
  · simp at h
  · rename_i p heq
    simp at h
    obtain ⟨-, rfl⟩ := h
    have := readBytes_length heq
    omega

theorem readEntryKind_le {t : Nat} {base : EntryData} {s : List Nat}
    {d : EntryData} {rest : List Nat}
    (h : readEntryKind t base s = .ok (d, rest)) : rest.length ≤ s.length := by
  unfold readEntryKind at h
  split at h
  · split at h
    · simp at h
    · rename_i p heq
      simp at h
      have := readI64LE_le heq
      obtain ⟨-, rfl⟩ := h
      omega
  · split at h
    · split at h
      · simp at h
      · rename_i p heq
        split at h
        · simp at h
        · rename_i q heq2
          simp at h
          obtain ⟨-, rfl⟩ := h
          have h1 := readU32LE_le heq
          have h2 := readBytes_length heq2
          omega
    · split at h
      · split at h
        · simp at h
        · rename_i p heq
          split at h
          · simp at h
          · rename_i q heq2
            simp at h
            obtain ⟨-, rfl⟩ := h
            have h1 := readU32LE_le heq
            have h2 := readBytes_length heq2
            omega
      · split at h
        · split at h
          · simp at h
          · rename_i p heq
            split at h
            · simp at h
            · rename_i q heq2
              simp at h
              obtain ⟨-, rfl⟩ := h
              have h1 := readI64LE_le heq
              have h2 := readI64LE_le heq2
              omega
        · simp at h
          obtain ⟨-, rfl⟩ := h
          exact le_refl _

theorem readEntry_le {s : List Nat} {t : Nat} {d : EntryData} {rest : List Nat}
    (h : readEntry s t = .ok (d, rest)) : rest.length ≤ s.length := by
  unfold readEntry at h
  split at h
  · simp at h
  · rename_i p1 heq1
    split at h
    · simp at h
    · rename_i p2 heq2
      split at h
      · simp at h
      · rename_i p3 heq3
        split at h
        · simp at h
        · rename_i p4 heq4
          split at h
          · simp at h
          · rename_i p5 heq5
            split at h
            · simp at h
            · rename_i p6 heq6
              split at h
              · simp at h
              · rename_i p7 heq7
                split at h
                · simp at h
                · rename_i p8 heq8
                  have h1 := readU32LE_le heq1
                  have h2 := readBytes_length heq2
                  have h3 := readU32LE_le heq3
                  have h4 := readI64LE_le heq4
                  have h5 := readI64LE_le heq5
                  have h6 := readI64LE_le heq6
                  have h7 := readI32LE_le heq7
                  have h8 := readI32LE_le heq8
                  have h9 := readEntryKind_le h
                  omega

theorem readEntryType_length {s : List Nat} {tag : Nat} {s1 : List Nat}
    (h : readEntryType s = .ok (tag, s1)) : s1.length + 1 = s.length := by
  cases s with
  | nil => simp [readEntryType, readU8] at h
  | cons b t =>
    simp [readEntryType, readU8] at h
    simp [← h.2]

/-- One filesystem-visible dispatch of the restore loop: the entry with
wire tag `tag` was handed to its restore helper at destination `dest`
(segments of the joined target path). -/
structure RestoreEffect where
  tag : Nat
  dest : List (List Nat)
deriving DecidableEq, Repr

/-- The entry-processing loop of `UnpackWithOptions` (unpack.go lines
104-184) over a decoded byte stream: read the tag byte, stop cleanly at
the end marker, read the entry, skip the root entry ".", run the
path-escape check, then dispatch by kind — recording one `RestoreEffect`
per dispatched entry and consuming exactly `size` content bytes for a
regular file (short content aborts after the file was created, as
`io.CopyN` does).  Unknown tags abort.  The internals of the restore
helpers (mkdir, chown, chtimes) have no bearing on the claims and are
summarized by the effect.  `filepath.Rel` cannot fail here because both
arguments are rooted, so its error branch is dead code. -/
def entryLoop (R : List (List Nat)) (s : List Nat) (acc : List RestoreEffect) :
    List RestoreEffect × Option String :=
  match h1 : readEntryType s with
  | .error _ => (acc, some "读取条目类型失败")
  | .ok (tag, s1) =>
    if tag = entryTypeEnd then (acc, none)
    else
      match h2 : readEntry s1 tag with
      | .error _ => (acc, some "读取条目失败")
      | .ok (d, s2) =>
        if d.relPath = [46] then entryLoop R s2 acc
        else if escapeCheck R d.relPath then (acc, some "检测到非法路径逃逸")
        else
          if tag = entryTypeFile then
            if d.size > 0 then
              if s2.length < d.size.toNat then
                (acc ++ [⟨tag, joinSegs R d.relPath⟩], some "写入文件内容失败")
              else
                entryLoop R (s2.drop d.size.toNat)
                  (acc ++ [⟨tag, joinSegs R d.relPath⟩])
            else entryLoop R s2 (acc ++ [⟨tag, joinSegs R d.relPath⟩])
          else if tag ≤ entryTypeBlockDev then
            entryLoop R s2 (acc ++ [⟨tag, joinSegs R d.relPath⟩])
          else (acc, some "未知的条目类型")
termination_by s.length
decreasing_by
  all_goals
    have hu8 := readEntryType_length h1
    have hre := readEntry_le h2
    first
    | omega
    | (have hdrop : (s2.drop d.size.toNat).length ≤ s2.length := by
         simp
       omega)

theorem tagOf_ne_end {t : FileType} (h : t ≠ FileType.socket) :
    tagOf t ≠ entryTypeEnd := by
  cases t <;> first | decide | exact absurd rfl h

theorem tagOf_le_blockDev {t : FileType} (h : t ≠ FileType.socket) :
    tagOf t ≤ entryTypeBlockDev := by
  cases t <;> first | decide | exact absurd rfl h

theorem tagOf_file_iff {t : FileType} (h : t ≠ FileType.socket) :
    tagOf t = entryTypeFile ↔ t = FileType.file := by
  cases t <;> first | decide | exact absurd rfl h

theorem entryLoop_effects (R : List (List Nat)) :
    ∀ (n : Nat) (s : List Nat), s.length ≤ n →
    ∀ (acc : List RestoreEffect) (eff : RestoreEffect),
      eff ∈ (entryLoop R s acc).1 →
      eff ∈ acc ∨ ∃ rel, escapeCheck R rel = false ∧ eff.dest = joinSegs R rel := by
  intro n
  induction n with
  | zero =>
    intro s hs acc eff h
    have hnil : s = [] := by
      cases s with
      | nil => rfl
      | cons b t => simp at hs
    subst hnil
    unfold entryLoop at h
    simp [readEntryType, readU8] at h
    exact Or.inl h
  | succ n ih =>
    intro s hs acc eff h
    unfold entryLoop at h
    split at h
    · exact Or.inl h
    · rename_i tag s1 heq1
      have hu8 := readEntryType_length heq1
      split at h
      · exact Or.inl h
      · split at h
        · exact Or.inl h
        · rename_i d s2 heq2
          have hre := readEntry_le heq2
          split at h
          · exact ih s2 (by omega) acc eff h
          · split at h
            · exact Or.inl h
            · rename_i hesc
              have hesc' : escapeCheck R d.relPath = false := by
                revert hesc
                cases escapeCheck R d.relPath <;> simp
              split at h
              · split at h
                · split at h
                  · rcases List.mem_append.mp h with hmem | hmem
                    · exact Or.inl hmem
                    · refine Or.inr ⟨d.relPath, hesc', ?_⟩
                      rw [List.mem_singleton.mp hmem]
                  · rcases ih _ (by simp; omega) _ eff h with hmem | hp
                    · rcases List.mem_append.mp hmem with hmem | hmem
                      · exact Or.inl hmem
                      · refine Or.inr ⟨d.relPath, hesc', ?_⟩
                        rw [List.mem_singleton.mp hmem]
                    · exact Or.inr hp
                · rcases ih s2 (by omega) _ eff h with hmem | hp
                  · rcases List.mem_append.mp hmem with hmem | hmem
                    · exact Or.inl hmem
                    · refine Or.inr ⟨d.relPath, hesc', ?_⟩
                      rw [List.mem_singleton.mp hmem]
                  · exact Or.inr hp
              · split at h
                · rcases ih s2 (by omega) _ eff h with hmem | hp
                  · rcases List.mem_append.mp hmem with hmem | hmem
                    · exact Or.inl hmem
                    · refine Or.inr ⟨d.relPath, hesc', ?_⟩
                      rw [List.mem_singleton.mp hmem]
                  · exact Or.inr hp
                · exact Or.inl h

/-- An archive entry the restore loop passes through without error: it is
wellformed, not a socket, not the skipped root "." and passes the
path-escape check. -/
def GoodEntry (R : List (List Nat)) (e : FileEntry) (content : List Nat) : Prop :=
  WFEntry e content ∧ e.type ≠ FileType.socket ∧ e.relPath ≠ [46] ∧
    escapeCheck R e.relPath = false

theorem entryLoop_step {R : List (List Nat)} {e : FileEntry} {content out : List Nat}
    (hg : GoodEntry R e content) (hw : writeEntry e content = .ok out)
    (rest : List Nat) (acc : List RestoreEffect) :
    entryLoop R (out ++ rest) acc =
      entryLoop R rest (acc ++ [⟨tagOf e.type, joinSegs R e.relPath⟩]) := by
  obtain ⟨hwf, hsock, hdot, hesc⟩ := hg
  have hwfc := hwf
  obtain ⟨body, hout, hrt, hre⟩ :=
    writeEntry_readEntry_roundtrip e content out rest hwf hsock hw
  conv_lhs => rw [entryLoop]
  rw [hout]
  simp only [List.cons_append, readEntryType, readU8]
  rw [if_neg (tagOf_ne_end hsock)]
  split
  · rename_i herr
    rw [hre] at herr
    simp at herr
  · rename_i d s2 heq
    rw [hre] at heq
    simp only [Prod.mk.injEq, Except.ok.injEq] at heq
    obtain ⟨hd, hs2⟩ := heq
    subst hd
    subst hs2
    rw [if_neg (show ¬ (expectedData e).relPath = [46] from by
      simpa [expectedData] using hdot)]
    rw [show escapeCheck R (expectedData e).relPath = false from by
      simpa [expectedData] using hesc]
    simp only [Bool.false_eq_true, if_false]
    have hdest : joinSegs R (expectedData e).relPath = joinSegs R e.relPath := by
      simp [expectedData]
    by_cases hf : e.type = FileType.file
    · rw [if_pos ((tagOf_file_iff hsock).mpr hf)]
      have hdsize : (expectedData e).size = e.size := by simp [expectedData, hf]
      simp only [hdsize, hdest, hf, if_true, if_pos rfl]
      have hc : content.length = e.size.toNat := by
        obtain ⟨-, -, -, -, w1⟩ := hwfc
        obtain ⟨-, -, -, -, w2⟩ := w1
        obtain ⟨-, -, -, -, w3⟩ := w2
        obtain ⟨-, -, -, -, w4⟩ := w3
        obtain ⟨-, -, -, -, hcont⟩ := w4
        exact hcont hf
      obtain ⟨-, -, -, -, v1⟩ := hwf
      obtain ⟨-, -, -, -, v2⟩ := v1
      obtain ⟨-, -, -, -, hsz1, hsz2, -, -⟩ := v2
      by_cases hpos : e.size > 0
      · rw [if_pos hpos]
        rw [if_neg (show ¬ (content ++ rest).length < e.size.toNat from by
          simp [hc])]
        have hdrop : (content ++ rest).drop e.size.toNat = rest := by
          rw [← hc]
          exact List.drop_left content rest
        rw [hdrop]
      · rw [if_neg hpos]
        have hz : e.size = 0 := by omega
        have hcn : content = [] := by
          have h0 : content.length = 0 := by rw [hc, hz]; rfl
          exact List.length_eq_zero.mp h0
        rw [hcn, List.nil_append]
    · rw [if_neg (fun hh => hf ((tagOf_file_iff hsock).mp hh))]
      rw [if_pos (tagOf_le_blockDev hsock)]
      simp only [hdest, hf, if_false, List.nil_append]

theorem entryLoop_escape {R : List (List Nat)} {e : FileEntry} {content out : List Nat}
    (hwf : WFEntry e content) (hsock : e.type ≠ FileType.socket)
    (hdot : e.relPath ≠ [46]) (hesc : escapeCheck R e.relPath = true)
    (hw : writeEntry e content = .ok out) (rest : List Nat) (acc : List RestoreEffect) :
    entryLoop R (out ++ rest) acc = (acc, some "检测到非法路径逃逸") := by
  obtain ⟨body, hout, hrt, hre⟩ :=
    writeEntry_readEntry_roundtrip e content out rest hwf hsock hw
  conv_lhs => rw [entryLoop]
  rw [hout]
  simp only [List.cons_append, readEntryType, readU8]
  rw [if_neg (tagOf_ne_end hsock)]
  split
  · rename_i herr
    rw [hre] at herr
    simp at herr
  · rename_i d s2 heq
    rw [hre] at heq
    simp only [Prod.mk.injEq, Except.ok.injEq] at heq
    obtain ⟨hd, hs2⟩ := heq
    subst hd
    subst hs2
    rw [if_neg (show ¬ (expectedData e).relPath = [46] from by
      simpa [expectedData] using hdot)]
    rw [if_pos (show escapeCheck R (expectedData e).relPath = true from by
      simpa [expectedData] using hesc)]

/-- Concatenation of the serialized forms of a list of entries with their
file contents, as the pack loop writes them. -/
def encodeEntries : List (FileEntry × List Nat) → Except String (List Nat)
  | [] => .ok []
  | (e, c) :: rest =>
    match writeEntry e c with
    | .error err => .error err
    | .ok out =>
      match encodeEntries rest with
      | .error err => .error err
      | .ok outs => .ok (out ++ outs)

theorem encodeEntries_cons_ok {e : FileEntry} {c : List Nat}
    {rest : List (FileEntry × List Nat)} {bytes : List Nat}
    (h : encodeEntries ((e, c) :: rest) = .ok bytes) :
    ∃ out outs, writeEntry e c = .ok out ∧ encodeEntries rest = .ok outs ∧
      bytes = out ++ outs := by
  simp only [encodeEntries] at h
  split at h
  · simp at h
  · rename_i out hwout
    split at h
    · simp at h
    · rename_i outs houts
      simp at h
      exact ⟨out, outs, hwout, houts, h.symm⟩

/-- C2: Path-escape rejection.  First part: every filesystem dispatch the
restore loop performs is for an entry that passed the path-escape check —
the check precedes dispatch unconditionally.  Second part: an archive that
serializes well-behaved entries followed by an entry whose relative path
resolves outside the target makes the loop fail with the security error
after dispatching exactly the preceding entries; nothing is dispatched for
the offending entry nor for any entry after it (the trailing bytes are
never examined). -/
theorem unpack_path_escape_rejection :
    (∀ (R : List (List Nat)) (s : List Nat) (eff : RestoreEffect),
      eff ∈ (entryLoop R s []).1 →
      ∃ rel, escapeCheck R rel = false ∧ eff.dest = joinSegs R rel) ∧
    (∀ (R : List (List Nat)) (pres : List (FileEntry × List Nat))
      (bad : FileEntry) (badContent bytes tail : List Nat)
      (acc : List RestoreEffect),
      (∀ p ∈ pres, GoodEntry R p.1 p.2) →
      WFEntry bad badContent → bad.type ≠ FileType.socket →
      bad.relPath ≠ [46] → resolvesOutside R bad.relPath →
      encodeEntries (pres ++ [(bad, badContent)]) = .ok bytes →
      entryLoop R (bytes ++ tail) acc =
        (acc ++ (pres.map fun p => ⟨tagOf p.1.type, joinSegs R p.1.relPath⟩),
         some "检测到非法路径逃逸")) := by
  constructor
  · intro R s eff h
    rcases entryLoop_effects R s.length s (le_refl _) [] eff h with hmem | hp
    · simp at hmem
    · exact hp
  · intro R pres
    induction pres with
    | nil =>
      intro bad badContent bytes tail acc hpre hwf hsock hdot houtside henc
      rw [List.nil_append] at henc
      obtain ⟨outb, outs, hw, hrest, rfl⟩ := encodeEntries_cons_ok henc
      have houts : outs = [] := by
        simp only [encodeEntries] at hrest
        simpa using hrest.symm
      subst houts
      rw [List.append_nil]
      simp only [List.map_nil, List.append_nil]
      exact entryLoop_escape hwf hsock hdot (escapeCheck_of_outside houtside)
        hw tail acc
    | cons p ps ih =>
      intro bad badContent bytes tail acc hpre hwf hsock hdot houtside henc
      obtain ⟨e, c⟩ := p
      rw [List.cons_append] at henc
      obtain ⟨oute, outs, hw, hrest, rfl⟩ := encodeEntries_cons_ok henc
      rw [List.append_assoc]
      have hg : GoodEntry R e c := hpre (e, c) (by simp)
      rw [entryLoop_step hg hw (outs ++ tail) acc]
      rw [ih bad badContent outs tail _
        (fun q hq => hpre q (by simp [hq])) hwf hsock hdot houtside hrest]
      simp

theorem entryLoop_end (R : List (List Nat)) (tail : List Nat)
    (acc : List RestoreEffect) : entryLoop R (0 :: tail) acc = (acc, none) := by
  rw [entryLoop]
  simp [readEntryType, readU8, entryTypeEnd]

/-- The restore root "/t" used by the concrete restore-loop witnesses. -/
def wR : List (List Nat) := [[116]]

/-- A directory entry "d" that passes the escape check. -/
def wDirEntry : FileEntry := ⟨[100], FileType.dir, 493, 0, 0, 0, 0, 0, 0, [], [], 0, 0⟩

/-- `writeEntry wDirEntry []`. -/
def wDirBytes : List Nat :=
  [2, 1, 0, 0, 0, 100, 237, 1] ++ List.replicate 34 0

/-- A regular-file entry "../x" whose path resolves outside the target. -/
def wBadEntry : FileEntry :=
  ⟨[46, 46, 47, 120], FileType.file, 420, 0, 0, 0, 0, 0, 0, [], [], 0, 0⟩

/-- `writeEntry wBadEntry []`. -/
def wBadBytes : List Nat :=
  [1, 4, 0, 0, 0, 46, 46, 47, 120, 164, 1] ++ List.replicate 42 0

theorem unpack_path_escape_rejection_witness :
    ((⟨2, [[116], [100]]⟩ : RestoreEffect) ∈ (entryLoop wR (wDirBytes ++ [0]) []).1 ∧
      ∃ rel, escapeCheck wR rel = false ∧
        (⟨2, [[116], [100]]⟩ : RestoreEffect).dest = joinSegs wR rel) ∧
    (resolvesOutside wR wBadEntry.relPath ∧
      encodeEntries ([] ++ [(wBadEntry, [])]) = .ok wBadBytes ∧
      entryLoop wR (wBadBytes ++ [9]) [] = ([], some "检测到非法路径逃逸")) := by
  have hg : GoodEntry wR wDirEntry [] := ⟨by decide, by decide, by decide, by rfl⟩
  have hw : writeEntry wDirEntry [] = .ok wDirBytes := by rfl
  have hmem : (⟨2, [[116], [100]]⟩ : RestoreEffect) ∈
      (entryLoop wR (wDirBytes ++ [0]) []).1 := by
    rw [entryLoop_step hg hw [0] [], entryLoop_end]
    decide
  have hout : resolvesOutside wR wBadEntry.relPath := by decide
  have hencB : encodeEntries ([] ++ [(wBadEntry, [])]) = .ok wBadBytes := by rfl
  have hbad := unpack_path_escape_rejection.2 wR [] wBadEntry [] wBadBytes [9] []
    (by intro p hp; simp at hp) (by decide) (by decide) (by simp [wBadEntry]) hout hencB
  exact ⟨⟨hmem, unpack_path_escape_rejection.1 wR (wDirBytes ++ [0]) _ hmem⟩,
    hout, hencB, by simpa using hbad⟩

/-- C10: the restore-side escape check tests only whether the entry's path
relative to the target begins with the two bytes "..", so for every
wellformed root and every entry whose relative path is a single component
that merely starts with ".." without being a parent-directory escape
(e.g. "..config"), the joined destination lies inside the target
(`R ++ [seg]`), yet the check fires and the restore loop fails the whole
restore with the path-escape error, dispatching nothing. -/
theorem escape_check_dotdot_overreach
    (R : List (List Nat)) (hR : WFRoot R) (e : FileEntry) (content out : List Nat)
    (h1 : e.relPath ≠ []) (h2 : e.relPath ≠ [46]) (h3 : e.relPath ≠ [46, 46])
    (h4 : ¬ 47 ∈ e.relPath)
    (hpre : ([46, 46] : List Nat).isPrefixOf e.relPath = true)
    (hwf : WFEntry e content) (hsock : e.type ≠ FileType.socket)
    (hw : writeEntry e content = .ok out) (tail : List Nat) :
    joinSegs R e.relPath = R ++ [e.relPath] ∧
    escapeCheck R e.relPath = true ∧
    entryLoop R (out ++ tail) [] = ([], some "检测到非法路径逃逸") := by
  have hjoin : joinSegs R e.relPath = R ++ [e.relPath] :=
    joinSegs_single hR h1 h2 h3 h4
  have hesc : escapeCheck R e.relPath = true := by
    unfold escapeCheck relString relSegs
    rw [hjoin, commonPrefixLen_append, Nat.sub_self]
    rw [List.drop_left]
    simpa [joinSegsStr] using hpre
  exact ⟨hjoin, hesc, entryLoop_escape hwf hsock h2 hesc hw tail []⟩

/-- A regular-file entry "..c": a top-level name starting with ".." that is
not a parent-directory escape. -/
def wDotEntry : FileEntry :=
  ⟨[46, 46, 99], FileType.file, 420, 0, 0, 0, 0, 0, 0, [], [], 0, 0⟩

/-- `writeEntry wDotEntry []`. -/
def wDotBytes : List Nat :=
  [1, 3, 0, 0, 0, 46, 46, 99, 164, 1] ++ List.replicate 42 0

theorem escape_check_dotdot_overreach_witness :
    WFRoot wR ∧ wDotEntry.relPath ≠ [] ∧ wDotEntry.relPath ≠ [46] ∧
    wDotEntry.relPath ≠ [46, 46] ∧ ¬ 47 ∈ wDotEntry.relPath ∧
    ([46, 46] : List Nat).isPrefixOf wDotEntry.relPath = true ∧
    WFEntry wDotEntry [] ∧ wDotEntry.type ≠ FileType.socket ∧
    writeEntry wDotEntry [] = .ok wDotBytes ∧
    (joinSegs wR wDotEntry.relPath = wR ++ [wDotEntry.relPath] ∧
     escapeCheck wR wDotEntry.relPath = true ∧
     entryLoop wR (wDotBytes ++ [9]) [] = ([], some "检测到非法路径逃逸")) :=
  ⟨by decide, by simp [wDotEntry], by simp [wDotEntry], by simp [wDotEntry],
   by decide, by rfl, by decide, by simp [wDotEntry], by rfl,
   escape_check_dotdot_overreach wR (by decide) wDotEntry [] wDotBytes
     (by simp [wDotEntry]) (by simp [wDotEntry]) (by simp [wDotEntry])
     (by decide) (by rfl) (by decide) (by simp [wDotEntry]) (by rfl) [9]⟩

/-! ## Encryption writer (src/unnamed/part_002, encryptWriter, lines 855-914)

AES-GCM and the system random source are external library calls: the model
is parameterized by `ns i` — the bytes returned by the i-th
`crypto/rand.Read` call for a per-chunk nonce — and by `sl nonce chunk`,
the ciphertext-plus-tag returned by `gcm.Seal(nil, nonce, chunk, nil)`. -/

/-- The mutable state of an `encryptWriter`: the pending plaintext buffer,
the number of nonces drawn so far, and the bytes written to the underlying
writer. -/
structure EncState where
  buffer : List Nat
  idx : Nat
  out : List Nat
deriving DecidableEq, Repr

/-- The drain loop of `encryptWriter.Write`: while the buffer holds at
least 64 KiB (65536 bytes), sl one 64 KiB chunk under a freshly drawn
nonce and write the nonce immediately followed by the ciphertext+tag. -/
def drainLoop (ns : Nat → List Nat) (sl : List Nat → List Nat → List Nat)
    (st : EncState) : EncState :=
  if h : st.buffer.length ≥ 65536 then
    drainLoop ns sl
      { buffer := st.buffer.drop 65536
        idx := st.idx + 1
        out := st.out ++ (ns st.idx ++ sl (ns st.idx) (st.buffer.take 65536)) }
  else st
termination_by st.buffer.length
decreasing_by
  simp
  omega

/-- `encryptWriter.Write`: append the caller's bytes to the buffer, then
drain full chunks. -/
def encWrite (ns : Nat → List Nat) (sl : List Nat → List Nat → List Nat)
    (st : EncState) (p : List Nat) : EncState :=
  drainLoop ns sl { st with buffer := st.buffer ++ p }

/-- `encryptWriter.Close`: sl the remaining partial chunk, if any, the
same way. -/
def encClose (ns : Nat → List Nat) (sl : List Nat → List Nat → List Nat)
    (st : EncState) : EncState :=
  if st.buffer = [] then st
  else
    { buffer := []
      idx := st.idx + 1
      out := st.out ++ (ns st.idx ++ sl (ns st.idx) st.buffer) }

/-- A fresh `encryptWriter`. -/
def encInit : EncState := ⟨[], 0, []⟩

/-- The state after a sequence of `Write` calls. -/
def encWrites (ns : Nat → List Nat) (sl : List Nat → List Nat → List Nat)
    (ws : List (List Nat)) : EncState :=
  ws.foldl (encWrite ns sl) encInit

/-- The greedy full 64 KiB chunks of a byte list. -/
def fullChunks (l : List Nat) : List (List Nat) :=
  if h : l.length ≥ 65536 then l.take 65536 :: fullChunks (l.drop 65536) else []
termination_by l.length
decreasing_by
  simp
  omega

/-- What remains of a byte list after its full 64 KiB chunks. -/
def chunkRest (l : List Nat) : List Nat :=
  if h : l.length ≥ 65536 then chunkRest (l.drop 65536) else l
termination_by l.length
decreasing_by
  simp
  omega

/-- The 64 KiB chunking of a plaintext stream: the full chunks followed by
the final, shorter chunk when one remains. -/
def chunksOf (l : List Nat) : List (List Nat) :=
  fullChunks l ++ (if chunkRest l = [] then [] else [chunkRest l])

/-- The wire bytes of a chunk list sealed under nonces
`ns i, ns (i+1), ...`: each chunk as its nonce immediately followed by its
ciphertext+tag. -/
def wireOf (ns : Nat → List Nat) (sl : List Nat → List Nat → List Nat)
    (i : Nat) : List (List Nat) → List Nat
  | [] => []
  | c :: cs => (ns i ++ sl (ns i) c) ++ wireOf ns sl (i + 1) cs

theorem drainLoop_spec (ns : Nat → List Nat) (sl : List Nat → List Nat → List Nat) :
    ∀ (n : Nat) (buf : List Nat) (i : Nat) (out : List Nat), buf.length ≤ n →
    drainLoop ns sl ⟨buf, i, out⟩ =
      ⟨chunkRest buf, i + (fullChunks buf).length,
       out ++ wireOf ns sl i (fullChunks buf)⟩ := by
  intro n
  induction n with
  | zero =>
    intro buf i out hlen
    have hb : buf = [] := List.length_eq_zero.mp (by omega)
    subst hb
    rw [drainLoop, fullChunks, chunkRest]
    simp [wireOf]
  | succ n ih =>
    intro buf i out hlen
    rw [drainLoop]
    by_cases h : buf.length ≥ 65536
    · rw [dif_pos h]
      simp only
      rw [ih (buf.drop 65536) (i + 1) _ (by simp; omega)]
      rw [show fullChunks buf = buf.take 65536 :: fullChunks (buf.drop 65536) from by
        rw [fullChunks]
        rw [dif_pos h]]
      rw [show chunkRest buf = chunkRest (buf.drop 65536) from by
        rw [chunkRest]
        rw [dif_pos h]]
      simp only [wireOf, EncState.mk.injEq, List.length_cons]
      refine ⟨trivial, by omega, by simp [List.append_assoc]⟩
    · rw [dif_neg h]
      rw [show fullChunks buf = [] from by rw [fullChunks]; rw [dif_neg h]]
      rw [show chunkRest buf = buf from by rw [chunkRest]; rw [dif_neg h]]
      simp [wireOf]

theorem wireOf_append (ns : Nat → List Nat) (sl : List Nat → List Nat → List Nat)
    (cs ds : List (List Nat)) : ∀ i,
    wireOf ns sl i (cs ++ ds) =
      wireOf ns sl i cs ++ wireOf ns sl (i + cs.length) ds := by
  induction cs with
  | nil => intro i; simp [wireOf]
  | cons c cr ih =>
    intro i
    rw [List.cons_append]
    rw [show wireOf ns sl i (c :: (cr ++ ds)) =
      (ns i ++ sl (ns i) c) ++ wireOf ns sl (i + 1) (cr ++ ds) from rfl]
    rw [ih (i + 1)]
    rw [show wireOf ns sl i (c :: cr) =
      (ns i ++ sl (ns i) c) ++ wireOf ns sl (i + 1) cr from rfl]
    have harith : i + 1 + cr.length = i + (c :: cr).length := by
      simp only [List.length_cons]
      omega
    rw [harith]
    simp only [List.append_assoc]

theorem chunks_append : ∀ (n : Nat) (a : List Nat), a.length ≤ n → ∀ b,
    fullChunks (a ++ b) = fullChunks a ++ fullChunks (chunkRest a ++ b) ∧
    chunkRest (a ++ b) = chunkRest (chunkRest a ++ b) := by
  intro n
  induction n with
  | zero =>
    intro a hlen b
    have hb : a = [] := List.length_eq_zero.mp (by omega)
    subst hb
    have h1 : fullChunks ([] : List Nat) = [] := by rw [fullChunks]; simp
    have h2 : chunkRest ([] : List Nat) = [] := by rw [chunkRest]; simp
    simp [h1, h2]
  | succ n ih =>
    intro a hlen b
    by_cases h : a.length ≥ 65536
    · have hab : (a ++ b).length ≥ 65536 := by simp; omega
      have htake : (a ++ b).take 65536 = a.take 65536 := by
        rw [List.take_append_of_le_length (by omega)]
      have hdrop : (a ++ b).drop 65536 = a.drop 65536 ++ b := by
        rw [List.drop_append_of_le_length (by omega)]
      obtain ⟨ihf, ihr⟩ := ih (a.drop 65536) (by simp; omega) b
      constructor
      · rw [fullChunks, dif_pos hab, htake, hdrop, ihf]
        rw [show fullChunks a = a.take 65536 :: fullChunks (a.drop 65536) from by
          rw [fullChunks, dif_pos h]]
        rw [show chunkRest a = chunkRest (a.drop 65536) from by
          rw [chunkRest, dif_pos h]]
        simp
      · rw [chunkRest, dif_pos hab, hdrop, ihr]
        rw [show chunkRest a = chunkRest (a.drop 65536) from by
          rw [chunkRest, dif_pos h]]
    · rw [show fullChunks a = [] from by rw [fullChunks, dif_neg h]]
      rw [show chunkRest a = a from by rw [chunkRest, dif_neg h]]
      simp

theorem encWrites_spec (ns : Nat → List Nat) (sl : List Nat → List Nat → List Nat) :
    ∀ (ws : List (List Nat)) (p : List Nat),
    ws.foldl (encWrite ns sl)
      ⟨chunkRest p, (fullChunks p).length, wireOf ns sl 0 (fullChunks p)⟩ =
    ⟨chunkRest (p ++ ws.join), (fullChunks (p ++ ws.join)).length,
     wireOf ns sl 0 (fullChunks (p ++ ws.join))⟩ := by
  intro ws
  induction ws with
  | nil => intro p; simp
  | cons w rest ih =>
    intro p
    simp only [List.foldl_cons]
    have hstep : encWrite ns sl
        ⟨chunkRest p, (fullChunks p).length, wireOf ns sl 0 (fullChunks p)⟩ w =
        ⟨chunkRest (p ++ w), (fullChunks (p ++ w)).length,
         wireOf ns sl 0 (fullChunks (p ++ w))⟩ := by
      rw [show encWrite ns sl
          ⟨chunkRest p, (fullChunks p).length, wireOf ns sl 0 (fullChunks p)⟩ w =
        drainLoop ns sl ⟨chunkRest p ++ w, (fullChunks p).length,
          wireOf ns sl 0 (fullChunks p)⟩ from rfl]
      rw [drainLoop_spec ns sl (chunkRest p ++ w).length _ _ _ (le_refl _)]
      obtain ⟨hf, hr⟩ := chunks_append p.length p (le_refl _) w
      rw [hf, hr, wireOf_append]
      simp [EncState.mk.injEq, List.length_append]
    rw [hstep]
    have := ih (p ++ w)
    simpa [List.append_assoc] using this

theorem fullChunks_join_rest : ∀ (n : Nat) (l : List Nat), l.length ≤ n →
    (fullChunks l).join ++ chunkRest l = l := by
  intro n
  induction n with
  | zero =>
    intro l hlen
    have hb : l = [] := List.length_eq_zero.mp (by omega)
    subst hb
    rw [fullChunks, chunkRest]
    simp
  | succ n ih =>
    intro l hlen
    by_cases h : l.length ≥ 65536
    · rw [fullChunks, dif_pos h, chunkRest, dif_pos h]
      simp only [List.join_cons, List.append_assoc]
      rw [ih (l.drop 65536) (by simp; omega)]
      simp
    · rw [fullChunks, dif_neg h, chunkRest, dif_neg h]
      simp

theorem fullChunks_mem_length : ∀ (n : Nat) (l : List Nat), l.length ≤ n →
    ∀ c ∈ fullChunks l, c.length = 65536 := by
  intro n
  induction n with
  | zero =>
    intro l hlen c hc
    have hb : l = [] := List.length_eq_zero.mp (by omega)
    subst hb
    rw [fullChunks] at hc
    simp at hc
  | succ n ih =>
    intro l hlen c hc
    by_cases h : l.length ≥ 65536
    · rw [fullChunks, dif_pos h] at hc
      rcases List.mem_cons.mp hc with rfl | hc
      · simp
        omega
      · exact ih (l.drop 65536) (by simp; omega) c hc
    · rw [fullChunks, dif_neg h] at hc
      simp at hc

theorem chunkRest_short : ∀ (n : Nat) (l : List Nat), l.length ≤ n →
    (chunkRest l).length < 65536 := by
  intro n
  induction n with
  | zero =>
    intro l hlen
    have hb : l = [] := List.length_eq_zero.mp (by omega)
    subst hb
    rw [chunkRest]
    simp
  | succ n ih =>
    intro l hlen
    by_cases h : l.length ≥ 65536
    · rw [chunkRest, dif_pos h]
      exact ih (l.drop 65536) (by simp; omega)
    · rw [chunkRest, dif_neg h]
      omega

/-- C4: Encryption chunk nonce freshness.  With encryption enabled the
plaintext stream (any sequence of `Write` calls followed by `Close`) is
sealed in 64 KiB chunks, the final chunk possibly shorter; the wire output
is exactly, per chunk in order, a fresh nonce (the next value drawn from
the random source) immediately followed by that chunk's ciphertext+tag;
and when the random source never repeats a value, the nonces of distinct
chunks are distinct — chunk `i` uses draw `i`, never a value drawn for an
earlier chunk. -/
theorem encrypt_chunk_nonce_freshness (ns : Nat → List Nat)
    (sl : List Nat → List Nat → List Nat) (ws : List (List Nat)) :
    (encClose ns sl (encWrites ns sl ws)).out =
      wireOf ns sl 0 (chunksOf ws.join) ∧
    (chunksOf ws.join).join = ws.join ∧
    (∀ c ∈ (chunksOf ws.join).dropLast, c.length = 65536) ∧
    (∀ c ∈ chunksOf ws.join, c.length ≤ 65536) ∧
    (Function.Injective ns →
      ((List.range (chunksOf ws.join).length).map ns).Pairwise (· ≠ ·)) := by
  have hws : encWrites ns sl ws =
      ⟨chunkRest ws.join, (fullChunks ws.join).length,
       wireOf ns sl 0 (fullChunks ws.join)⟩ := by
    unfold encWrites
    have h0 : encInit = (⟨chunkRest [], (fullChunks []).length,
        wireOf ns sl 0 (fullChunks [])⟩ : EncState) := by
      rw [chunkRest, fullChunks]
      simp [encInit, wireOf]
    rw [h0]
    have := encWrites_spec ns sl ws []
    simpa using this
  refine ⟨?e1, ?e2, ?e3, ?e4, ?e5⟩
  · rw [hws]
    unfold encClose chunksOf
    by_cases h : chunkRest ws.join = []
    · rw [if_pos h, if_pos h]
      simp
    · rw [if_neg h, if_neg h]
      rw [wireOf_append]
      simp [wireOf]
  · unfold chunksOf
    by_cases h : chunkRest ws.join = []
    · rw [if_pos h]
      have hj := fullChunks_join_rest ws.join.length ws.join (le_refl _)
      rw [h] at hj
      simpa using hj
    · rw [if_neg h]
      have hj := fullChunks_join_rest ws.join.length ws.join (le_refl _)
      simpa using hj
  · unfold chunksOf
    intro c hc
    by_cases h : chunkRest ws.join = []
    · rw [if_pos h] at hc
      simp only [List.append_nil] at hc
      exact fullChunks_mem_length ws.join.length ws.join (le_refl _) c
        ((List.dropLast_sublist (fullChunks ws.join)).subset hc)
    · rw [if_neg h] at hc
      rw [List.dropLast_concat] at hc
      exact fullChunks_mem_length ws.join.length ws.join (le_refl _) c hc
  · unfold chunksOf
    intro c hc
    rcases List.mem_append.mp hc with hc | hc
    · rw [fullChunks_mem_length ws.join.length ws.join (le_refl _) c hc]
    · by_cases h : chunkRest ws.join = []
      · rw [if_pos h] at hc
        simp at hc
      · rw [if_neg h] at hc
        rw [List.mem_singleton.mp hc]
        have := chunkRest_short ws.join.length ws.join (le_refl _)
        omega
  · intro hinj
    exact (List.pairwise_lt_range _).map ns
      (fun a b hab he => absurd (hinj he) (Nat.ne_of_lt hab))

/-- An injective stand-in for the random nonce source. -/
def wNs : Nat → List Nat := fun i => List.replicate i 0

/-- A stand-in for `gcm.Seal`: ciphertext plus a 16-byte tag. -/
def wSl : List Nat → List Nat → List Nat := fun _ c => c ++ List.replicate 16 0

/-- A concrete write sequence for the nonce-freshness witness. -/
def wWs : List (List Nat) := [[1, 2], [3]]

theorem encrypt_chunk_nonce_freshness_witness :
    (encClose wNs wSl (encWrites wNs wSl wWs)).out =
      wireOf wNs wSl 0 (chunksOf wWs.join) ∧
    (chunksOf wWs.join).join = wWs.join ∧
    (∀ c ∈ (chunksOf wWs.join).dropLast, c.length = 65536) ∧
    (∀ c ∈ chunksOf wWs.join, c.length ≤ 65536) ∧
    Function.Injective wNs ∧
    ((List.range (chunksOf wWs.join).length).map wNs).Pairwise (· ≠ ·) := by
  have hinj : Function.Injective wNs := by
    intro a b h
    have hlen := congrArg List.length h
    simpa [wNs] using hlen
  obtain ⟨h1, h2, h3, h4, h5⟩ := encrypt_chunk_nonce_freshness wNs wSl wWs
  exact ⟨h1, h2, h3, h4, hinj, h5 hinj⟩

/-! ## Decrypting reader and unpack pipeline
(src/internal/backup/unpack.go lines 22-187 and 234-317)

`gcm.Open` is an external library call, modelled by the parameter
`openF nonce ct`, returning `none` exactly when authentication fails. -/

/-- One chunk step of `decryptReader.Read` with an empty plaintext buffer
(unpack.go lines 254-316): read the 12-byte chunk nonce (zero bytes read
is a clean EOF, a short read is an error), read up to
64 KiB + 16 tag bytes of ciphertext (zero bytes is EOF, and a trailing
fragment shorter than the tag is treated as EOF), then open the chunk —
`none` means authentication failure and yields a hard error.  Returns
`none` for EOF or the decrypted chunk, with the unconsumed stream. -/
def decryptReadChunk (openF : List Nat → List Nat → Option (List Nat))
    (s : List Nat) : Except String (Option (List Nat) × List Nat) :=
  if s = [] then .ok (none, s)
  else if s.length < 12 then .error "读取 nonce 失败"
  else if s.drop 12 = [] then .ok (none, s.drop 12)
  else if ((s.drop 12).take 65552).length < 16 then
    (if ((s.drop 12).take 65552).length < 65552 then .ok (none, (s.drop 12).drop 65552)
     else .error "密文数据不完整")
  else
    match openF (s.take 12) ((s.drop 12).take 65552) with
    | none => .error "解密失败（可能是密码错误）"
    | some pt => .ok (some pt, (s.drop 12).drop 65552)

theorem decryptReadChunk_some_length {openF : List Nat → List Nat → Option (List Nat)}
    {s : List Nat} {pt rest : List Nat}
    (hk : decryptReadChunk openF s = .ok (some pt, rest)) : rest.length < s.length := by
  unfold decryptReadChunk at hk
  split at hk
  · simp at hk
  · rename_i hne
    have hpos : 0 < s.length := List.length_pos.mpr hne
    split at hk
    · simp at hk
    · split at hk
      · simp at hk
      · split at hk
        · split at hk
          · simp at hk
          · simp at hk
        · split at hk
          · simp at hk
          · simp at hk
            obtain ⟨-, rfl⟩ := hk
            simp
            omega

/-- The decryption of a whole underlying stream, chunk by chunk, as the
lazy `decryptReader` would deliver it to its consumer; a chunk error is a
hard error for the whole stream.  (The Go reader decrypts lazily while the
entry loop consumes; the model decrypts up front, which the claims settled
here do not distinguish.) -/
def decryptAll (openF : List Nat → List Nat → Option (List Nat))
    (s : List Nat) : Except String (List Nat) :=
  match h : decryptReadChunk openF s with
  | .error e => .error e
  | .ok (none, _) => .ok []
  | .ok (some pt, rest) =>
    match decryptAll openF rest with
    | .error e => .error e
    | .ok pts => .ok (pt ++ pts)
termination_by s.length
decreasing_by
  exact decryptReadChunk_some_length h

/-- Model of `UnpackWithOptions` (unpack.go lines 31-187) past the
filesystem preconditions: read the header; if encryption is flagged,
require a nonempty password, read the 12-byte archive-level nonce and
decrypt; if compression is flagged, inflate (the `flate` stage is the
external parameter `inflate`); finally run the entry loop.  Returns the
dispatched-effect trace and the error, if any. -/
def unpackModel (inflate : List Nat → Except String (List Nat))
    (openF : List Nat → List Nat → Option (List Nat))
    (R : List (List Nat)) (archive : List Nat) (password : List Nat) :
    List RestoreEffect × Option String :=
  match readHeaderWithFlags archive with
  | .error _ => ([], some "读取文件头失败")
  | .ok ((compress, encrypt), s1) =>
    if encrypt ∧ password = [] then ([], some "归档文件已加密，需要提供密码")
    else
      match (if encrypt then
          (if s1.length < 12 then .error "读取 nonce 失败"
           else decryptAll openF (s1.drop 12))
        else .ok s1 : Except String (List Nat)) with
      | .error msg => ([], some msg)
      | .ok s2 =>
        match (if compress then inflate s2 else .ok s2 : Except String (List Nat)) with
        | .error msg => ([], some msg)
        | .ok s3 => entryLoop R s3 []

/-- C5: Crypto error handling on unpack.  If the header declares
encryption and the passphrase is empty, unpack fails before reading any
entry (no effect is dispatched).  Every encrypted chunk whose
authentication check fails on open surfaces a hard error from the read.
Such a chunk error aborts the whole restore rather than being silently
ignored. -/
theorem unpack_crypto_error_handling :
    (∀ (inflate : List Nat → Except String (List Nat))
       (openF : List Nat → List Nat → Option (List Nat))
       (R : List (List Nat)) (archive password : List Nat)
       (compress : Bool) (s1 : List Nat),
      readHeaderWithFlags archive = .ok ((compress, true), s1) → password = [] →
      unpackModel inflate openF R archive password =
        ([], some "归档文件已加密，需要提供密码")) ∧
    (∀ (openF : List Nat → List Nat → Option (List Nat)) (s : List Nat),
      28 ≤ s.length →
      openF (s.take 12) ((s.drop 12).take 65552) = none →
      decryptReadChunk openF s = .error "解密失败（可能是密码错误）") ∧
    (∀ (inflate : List Nat → Except String (List Nat))
       (openF : List Nat → List Nat → Option (List Nat))
       (R : List (List Nat)) (archive password : List Nat)
       (compress : Bool) (s1 : List Nat) (msg : String),
      readHeaderWithFlags archive = .ok ((compress, true), s1) →
      password ≠ [] → 12 ≤ s1.length →
      decryptAll openF (s1.drop 12) = .error msg →
      unpackModel inflate openF R archive password = ([], some msg)) := by
  refine ⟨?j1, ?j2, ?j3⟩
  · intro inflate openF R archive password compress s1 hhdr hpw
    subst hpw
    unfold unpackModel
    rw [hhdr]
    simp
  · intro openF s hlen hopen
    unfold decryptReadChunk
    rw [if_neg (by intro hs; rw [hs] at hlen; simp at hlen)]
    rw [if_neg (by omega)]
    rw [if_neg (by intro hs; have := congrArg List.length hs; simp at this; omega)]
    rw [if_neg (by simp; omega)]
    rw [hopen]
  · intro inflate openF R archive password compress s1 msg hhdr hpw hlen hdec
    unfold unpackModel
    rw [hhdr]
    simp [hpw, hdec, show ¬ s1.length < 12 by omega]

/-- An archive header declaring encryption (flags byte 2) and nothing
after it. -/
def wEncHeader : List Nat := magicNumber ++ u32le 2 ++ (2 :: List.replicate 7 0)

/-- An encrypted archive: the header, a 12-byte archive nonce and one
28-byte chunk record. -/
def wEncArchive : List Nat := wEncHeader ++ List.replicate 40 0

/-- An opener that always fails authentication. -/
def wOpenFail : List Nat → List Nat → Option (List Nat) := fun _ _ => none

theorem unpack_crypto_error_handling_witness :
    readHeaderWithFlags wEncHeader = .ok ((false, true), []) ∧
    unpackModel (fun s => .ok s) wOpenFail wR wEncHeader [] =
      ([], some "归档文件已加密，需要提供密码") ∧
    28 ≤ (List.replicate 40 (0 : Nat)).length ∧
    decryptReadChunk wOpenFail (List.replicate 40 0) =
      .error "解密失败（可能是密码错误）" ∧
    readHeaderWithFlags wEncArchive = .ok ((false, true), List.replicate 40 0) ∧
    unpackModel (fun s => .ok s) wOpenFail wR wEncArchive [49] =
      ([], some "解密失败（可能是密码错误）") := by
  have hh1 : readHeaderWithFlags wEncHeader = .ok ((false, true), []) := by rfl
  have hh2 : readHeaderWithFlags wEncArchive = .ok ((false, true), List.replicate 40 0) := by
    rfl
  have hchunk : decryptReadChunk wOpenFail (List.replicate 40 0) =
      .error "解密失败（可能是密码错误）" :=
    unpack_crypto_error_handling.2.1 wOpenFail (List.replicate 40 0) (by simp) rfl
  have hdecAll : decryptAll wOpenFail ((List.replicate 40 (0 : Nat)).drop 12) =
      .error "解密失败（可能是密码错误）" := by
    rw [decryptAll]
    rfl
  exact ⟨hh1,
    unpack_crypto_error_handling.1 (fun s => .ok s) wOpenFail wR wEncHeader []
      false [] hh1 rfl,
    by simp, hchunk, hh2,
    unpack_crypto_error_handling.2.2 (fun s => .ok s) wOpenFail wR wEncArchive [49]
      false (List.replicate 40 0) _ hh2 (by simp) (by simp) hdecAll⟩

end Backup
